import Mathlib

/-!
# Clustering of curves: k-center seeding, local search, 1-median

A shallow embedding of `include/clustering.hpp` (namespace `Clustering`) and
theorems about it.

Modelling conventions.
* A value of `distance_t` (a `double`) is a rational, or `+infinity` (`⊤`)
  where the code uses `numeric_limits::infinity()`. Comparisons are exact.
  An addition `+=` on doubles yields the double nearest to the exact sum
  (`roundDouble`: 53 significant bits, ties to the even significand, gradual
  underflow); exponent overflow of a finite sum is outside the value model.
* The curve collection `in` is seen through its size and through the value the
  distance oracle (`Frechet::Continuous::distance_cuda(in[i], in[j], ...)`)
  returns for a pair of indices.
* `std::vector<std::vector<distance_t>> distances` is a square table with an
  explicit size; every access is bounds-checked and an access outside the
  table is a fault. The table also records which oracle calls were made.
* `while (true)` runs on fuel; running out of fuel is a fault of its own.
* `size_t` arithmetic that can wrap is taken modulo `2 ^ 64`.
-/

namespace Clustering

/-- Values of `distance_t`: rationals, with `⊤` for `+infinity`. -/
abbrev distance_t := WithTop ℚ

/-- `class Centers : public std::vector<std::size_t>`. -/
abbrev Centers := List Nat

/-- `class Cluster_Assignment : public std::unordered_map<size_t, std::vector<size_t>>`,
as a list of (key, value) entries without duplicate keys. -/
abbrev Cluster_Assignment := List (Nat × List Nat)

/-- `struct Clustering_Result`. The field `value` has no initialiser in the
source: `none` stands for "never assigned". `running_time` (wall clock) is not
modelled. -/
structure Clustering_Result where
  centers : Centers
  value : Option distance_t
  assignment : Cluster_Assignment

/-- The curve collection `const Curves &in`: its size, and the value of the
continuous distance oracle on the curves at two indices. -/
structure Curves where
  size : Nat
  dist : Nat → Nat → ℚ

/-- Ways a run can fail to produce a result. -/
inductive Fault where
  | outOfBounds
  | divisionByZero
  | outOfFuel
deriving DecidableEq, Repr

/-- The table `distances` (always square), with the log of oracle calls made
through `cheap_dist`. -/
structure Distances where
  size : Nat
  cell : Nat → Nat → ℚ
  oracleCalls : List (Nat × Nat)

/-- What an entry point leaves behind: the returned record and the distance
table it allocated (`none` when it returned before allocating one). -/
structure Outcome where
  result : Clustering_Result
  distances : Option Distances

/-- Oracle calls made during a run. -/
def Outcome.oracleCalls (o : Outcome) : List (Nat × Nat) :=
  match o.distances with
  | none => []
  | some M => M.oracleCalls

/-- The assignment `distances[i][j] = v`. -/
def Distances.write (M : Distances) (i j : Nat) (v : ℚ) : Distances :=
  { M with cell := fun a b => if a = i ∧ b = j then v else M.cell a b }

/-- The table `std::vector<std::vector<distance_t>>(n, std::vector<distance_t>(n, -1.0))`. -/
def Distances.fresh (n : Nat) : Distances :=
  { size := n, cell := fun _ _ => -1, oracleCalls := [] }

/-- The loop `for (i = 0; i < in.size(); ++i) distances[i][i] = 0;`. -/
def Distances.zeroDiagonal (n : Nat) (M : Distances) : Distances :=
  (List.range n).foldl (fun acc i => acc.write i i 0) M

/-- `cheap_dist` (lines 47-55): fill `distances[i][j]` and `distances[j][i]`
from the oracle when `distances[i][j] < 0`. -/
def cheap_dist (i j : Nat) (inp : Curves) (distances : Distances) : Except Fault Distances :=
  if i < distances.size ∧ j < distances.size then
    if distances.cell i j < 0 then
      if i < inp.size ∧ j < inp.size then
        let dist := inp.dist i j
        .ok { (distances.write j i dist).write i j dist with
              oracleCalls := distances.oracleCalls ++ [(i, j)] }
      else .error .outOfBounds
    else .ok distances
  else .error .outOfBounds

/-- Number of binary digits of `n`; `fuel` bounds the recursion (`n` itself is
always enough). -/
def bitLength : Nat → Nat → Nat
  | 0, _ => 0
  | fuel + 1, n => if n = 0 then 0 else bitLength fuel (n / 2) + 1

/-- The binade of the positive quotient `a / b`: the exponent `e` with
`2 ^ e ≤ a / b < 2 ^ (e + 1)`. -/
def binadeOf (a b : Nat) : Int :=
  let e0 : Int := (bitLength a a : Int) - (bitLength b b : Int)
  if (if 0 ≤ e0 then b * 2 ^ e0.toNat ≤ a else b ≤ a * 2 ^ (-e0).toNat) then e0 else e0 - 1

/-- The integer nearest to `a / b`, a tie going to the even one. -/
def roundHalfEven (a b : Nat) : Nat :=
  let f := a / b
  let r := a % b
  if 2 * r < b then f else if b < 2 * r then f + 1 else if f % 2 = 0 then f else f + 1

/-- The `double` nearest to the rational `q` (IEEE 754 binary64, round to
nearest, ties to even): the significand is `q` scaled by `2 ^ (-p)` and rounded
to an integer, where `p = e - 52` for the binade `e` of `|q|`, and `e` is not
taken below `-1022` (subnormal numbers). -/
def roundDouble (q : ℚ) : ℚ :=
  if q = 0 then 0
  else
    let a := q.num.natAbs
    let b := q.den
    let p : Int := max (binadeOf a b) (-1022) - 52
    let m := roundHalfEven (a * 2 ^ (-p).toNat) (b * 2 ^ p.toNat)
    let mag : ℚ := ((m * 2 ^ p.toNat : Nat) : ℚ) / ((2 ^ (-p).toNat : Nat) : ℚ)
    if 0 < q then mag else -mag

/-- The sum `x + y` of two doubles, as `x += y` computes it: the double
nearest to the exact sum; `+infinity` when an operand is `+infinity`. -/
def double_add : distance_t → distance_t → distance_t
  | some x, some y => ((roundDouble (x + y) : ℚ) : distance_t)
  | _, _ => ⊤

/-- The index `std::floor(x * n)` a sample `x` selects (lines 238 and 242): `n`
is converted to `double`, the product is the double nearest to the exact
product, and its floor is converted to `size_t`. -/
def sampleIndex (n : Nat) (x : ℚ) : Nat := ⌊roundDouble (x * roundDouble (n : ℚ))⌋₊

/-- The loop of `getNearestCenter` (lines 65-71); `j` is the position of the
head of the remaining centers. -/
def getNearestCenter_loop (i : Nat) (inp : Curves) :
    List Nat → Nat → distance_t → Nat → Distances → Except Fault (Nat × Distances)
  | [], _, _, nearest, distances => .ok (nearest, distances)
  | c :: rest, j, min_cost_elem, nearest, distances =>
    match cheap_dist i c inp distances with
    | .error e => .error e
    | .ok distances1 =>
      if ((distances1.cell i c : ℚ) : distance_t) < min_cost_elem then
        getNearestCenter_loop i inp rest (j + 1) (distances1.cell i c : ℚ) j distances1
      else
        getNearestCenter_loop i inp rest (j + 1) min_cost_elem nearest distances1

/-- `getNearestCenter` (lines 57-73). -/
def getNearestCenter (i : Nat) (inp : Curves) (centers : Centers) (distances : Distances) :
    Except Fault (Nat × Distances) :=
  getNearestCenter_loop i inp centers 0 ⊤ 0 distances

/-- The loop of `curve_cost` (lines 81-86). -/
def curve_cost_loop (i : Nat) (inp : Curves) :
    List Nat → distance_t → Distances → Except Fault (distance_t × Distances)
  | [], min_cost_elem, distances => .ok (min_cost_elem, distances)
  | c :: rest, min_cost_elem, distances =>
    match cheap_dist i c inp distances with
    | .error e => .error e
    | .ok distances1 =>
      if ((distances1.cell i c : ℚ) : distance_t) < min_cost_elem then
        curve_cost_loop i inp rest (distances1.cell i c : ℚ) distances1
      else
        curve_cost_loop i inp rest min_cost_elem distances1

/-- `curve_cost` (lines 75-89). -/
def curve_cost (i : Nat) (inp : Curves) (centers : Centers) (distances : Distances) :
    Except Fault (distance_t × Distances) :=
  curve_cost_loop i inp centers ⊤ distances

/-- The loop of `center_cost_sum` (lines 95-98) over the curve indices still
to visit. -/
def center_cost_sum_loop (inp : Curves) (centers : Centers) :
    List Nat → distance_t → Distances → Except Fault (distance_t × Distances)
  | [], cost, distances => .ok (cost, distances)
  | i :: rest, cost, distances =>
    match curve_cost i inp centers distances with
    | .error e => .error e
    | .ok (min_cost_elem, distances1) =>
      center_cost_sum_loop inp centers rest (double_add cost min_cost_elem) distances1

/-- `center_cost_sum` (lines 91-100). -/
def center_cost_sum (inp : Curves) (centers : Centers) (distances : Distances) :
    Except Fault (distance_t × Distances) :=
  center_cost_sum_loop inp centers (List.range inp.size) 0 distances

/-- `result.emplace(key, v)`: insert unless the key is present. -/
def Cluster_Assignment.emplace (m : Cluster_Assignment) (key : Nat) (v : List Nat) :
    Cluster_Assignment :=
  if key ∈ m.map Prod.fst then m else m ++ [(key, v)]

/-- `result[key].push_back(x)`: `operator[]` inserts an empty vector for a
missing key. -/
def Cluster_Assignment.push_back_at : Cluster_Assignment → Nat → Nat → Cluster_Assignment
  | [], key, x => [(key, [x])]
  | (k1, v) :: rest, key, x =>
    if k1 = key then (k1, v ++ [x]) :: rest
    else (k1, v) :: Cluster_Assignment.push_back_at rest key x

/-- The loop of line 110 of `getClusterAssignment`. -/
def getClusterAssignment_loop (inp : Curves) (centers : Centers) :
    List Nat → Cluster_Assignment → Distances → Except Fault (Cluster_Assignment × Distances)
  | [], result, distances => .ok (result, distances)
  | i :: rest, result, distances =>
    match getNearestCenter i inp centers distances with
    | .error e => .error e
    | .ok (nearest, distances1) =>
      getClusterAssignment_loop inp centers rest (result.push_back_at nearest i) distances1

/-- `getClusterAssignment` (lines 102-113). -/
def getClusterAssignment (inp : Curves) (centers : Centers) (distances : Distances) :
    Except Fault (Cluster_Assignment × Distances) :=
  let k := centers.length
  if k = 0 then .ok ([], distances)
  else
    let result : Cluster_Assignment :=
      (List.range k).foldl (fun acc i => acc.emplace i []) []
    getClusterAssignment_loop inp centers (List.range inp.size) result distances

/-- The inner loop of the seeding (lines 144-153): one pass over the curves. -/
def gonzalez_scan (inp : Curves) (centers : Centers) :
    List Nat → distance_t → Nat → Distances → Except Fault (distance_t × Nat × Distances)
  | [], curr_maxdist, curr_maxcurve, distances => .ok (curr_maxdist, curr_maxcurve, distances)
  | j :: rest, curr_maxdist, curr_maxcurve, distances =>
    match curve_cost j inp centers distances with
    | .error e => .error e
    | .ok (curr_curve_cost, distances1) =>
      if curr_curve_cost > curr_maxdist then
        gonzalez_scan inp centers rest curr_curve_cost j distances1
      else
        gonzalez_scan inp centers rest curr_maxdist curr_maxcurve distances1

/-- The outer loop of the seeding (lines 137-160), by the number of passes
still to run (`num_centers - 1` at the start). -/
def gonzalez_seed (inp : Curves) :
    Nat → Centers → distance_t → Distances → Except Fault (Centers × distance_t × Distances)
  | 0, centers, curr_maxdist, distances => .ok (centers, curr_maxdist, distances)
  | passes + 1, centers, _, distances =>
    match gonzalez_scan inp centers (List.range inp.size) 0 0 distances with
    | .error e => .error e
    | .ok (curr_maxdist, curr_maxcurve, distances1) =>
      gonzalez_seed inp passes (centers ++ [curr_maxcurve]) curr_maxdist distances1

/-- The test `cost - gamma * approxcost > curr_cost` of line 188, on doubles
that are finite or `+infinity`: with `approxcost` infinite the left side is
NaN or `-infinity` and the test fails; an infinite `cost` with finite
`approxcost` exceeds exactly the finite `curr_cost`. On finite values the left
side is taken without rounding: `gamma` is the integer quotient 0 or 1; with
`gamma = 0` the left side is the double `cost` itself, and with `gamma = 1` it
is the difference of two doubles, whose sign rounding keeps. -/
def gonzalez_improves (cost : distance_t) (gamma : Nat) (approxcost curr_cost : distance_t) :
    Bool :=
  match cost, approxcost, curr_cost with
  | some c, some a, some cc => decide (c - (gamma : ℚ) * a > cc)
  | none, some _, some _ => true
  | _, _, _ => false

/-- The loop over `j` of the refinement (lines 179-193) for center position `i`. -/
def gonzalez_try (inp : Curves) (gamma : Nat) (approxcost : distance_t) (i : Nat) :
    List Nat → Centers → Centers → distance_t → Bool → Distances →
      Except Fault (Centers × distance_t × Bool × Distances)
  | [], _, centers, cost, found, distances => .ok (centers, cost, found, distances)
  | j :: rest, curr_centers, centers, cost, found, distances =>
    if j ∈ curr_centers then
      gonzalez_try inp gamma approxcost i rest curr_centers centers cost found distances
    else if i < curr_centers.length then
      let curr_centers1 := curr_centers.set i j
      match center_cost_sum inp curr_centers1 distances with
      | .error e => .error e
      | .ok (curr_cost, distances1) =>
        if gonzalez_improves cost gamma approxcost curr_cost then
          gonzalez_try inp gamma approxcost i rest curr_centers1 curr_centers1 curr_cost true
            distances1
        else
          gonzalez_try inp gamma approxcost i rest curr_centers1 centers cost found distances1
    else .error .outOfBounds

/-- The loop over center positions of the refinement (lines 175-194). -/
def gonzalez_pass (inp : Curves) (gamma : Nat) (approxcost : distance_t) :
    List Nat → Centers → distance_t → Bool → Distances →
      Except Fault (Centers × distance_t × Bool × Distances)
  | [], centers, cost, found, distances => .ok (centers, cost, found, distances)
  | i :: rest, centers, cost, found, distances =>
    match gonzalez_try inp gamma approxcost i (List.range inp.size) centers centers cost found
        distances with
    | .error e => .error e
    | .ok (centers1, cost1, found1, distances1) =>
      gonzalez_pass inp gamma approxcost rest centers1 cost1 found1 distances1

/-- The loop `while (true)` of the refinement (lines 171-196), on fuel. -/
def gonzalez_while (num_centers : Nat) (inp : Curves) (gamma : Nat) (approxcost : distance_t) :
    Nat → Centers → distance_t → Distances → Except Fault (Centers × distance_t × Distances)
  | 0, _, _, _ => .error .outOfFuel
  | fuel + 1, centers, cost, distances =>
    match gonzalez_pass inp gamma approxcost (List.range num_centers) centers cost false
        distances with
    | .error e => .error e
    | .ok (centers1, cost1, found, distances1) =>
      if found then gonzalez_while num_centers inp gamma approxcost fuel centers1 cost1 distances1
      else .ok (centers1, cost1, distances1)

/-- The block `if (arya)` (lines 163-198). `gamma` is computed in `size_t`:
the product wraps modulo `2 ^ 64` and the quotient is an integer quotient. -/
def gonzalez_refine (fuel : Nat) (num_centers : Nat) (inp : Curves) (centers : Centers)
    (distances : Distances) : Except Fault (Centers × distance_t × Distances) :=
  match center_cost_sum inp centers distances with
  | .error e => .error e
  | .ok (cost, distances1) =>
    let approxcost := cost
    let denominator := (3 * num_centers * inp.size) % 2 ^ 64
    if denominator = 0 then .error .divisionByZero
    else
      let gamma := 1 / denominator
      gonzalez_while num_centers inp gamma approxcost fuel centers cost distances1

/-- `gonzalez` (lines 115-209). `fuel` bounds the passes of the refinement. -/
def gonzalez (fuel : Nat) (num_centers : Nat) (inp : Curves) (arya : Bool)
    (with_assignment : Bool) : Except Fault Outcome :=
  let result : Clustering_Result := { centers := [], value := none, assignment := [] }
  if inp.size = 0 then .ok { result := result, distances := none }
  else
    let distances := Distances.zeroDiagonal inp.size (Distances.fresh inp.size)
    match gonzalez_seed inp (num_centers - 1) [0] 0 distances with
    | .error e => .error e
    | .ok (centers, curr_maxdist, distances1) =>
      match (if arya then gonzalez_refine fuel num_centers inp centers distances1
             else .ok (centers, curr_maxdist, distances1)) with
      | .error e => .error e
      | .ok (centers2, curr_maxdist2, distances2) =>
        match (if with_assignment then getClusterAssignment inp centers2 distances2
               else .ok (result.assignment, distances2)) with
        | .error e => .error e
        | .ok (assignment, distances3) =>
          .ok { result := { centers := centers2, value := some curr_maxdist2,
                            assignment := assignment },
                distances := some distances3 }

/-- `arya` (lines 211-213). -/
def arya (fuel : Nat) (num_centers : Nat) (inp : Curves) : Except Fault Outcome :=
  gonzalez fuel num_centers inp true false

/-- The loop over witnesses of `one_median_approx` (lines 241-246). -/
def one_median_approx_row (candidate : Nat) (inp : Curves) :
    List ℚ → distance_t → Distances → Except Fault (distance_t × Distances)
  | [], objective, distances => .ok (objective, distances)
  | w :: rest, objective, distances =>
    let witness := sampleIndex inp.size w
    match cheap_dist candidate witness inp distances with
    | .error e => .error e
    | .ok distances1 =>
      one_median_approx_row candidate inp rest
        (double_add objective ((distances1.cell candidate witness : ℚ) : distance_t)) distances1

/-- The loop over candidates of `one_median_approx` (lines 236-252). -/
def one_median_approx_loop (inp : Curves) (witnesses : List ℚ) :
    List ℚ → Nat → distance_t → Distances → Except Fault (Nat × distance_t × Distances)
  | [], best_candidate, best_objective_value, distances =>
    .ok (best_candidate, best_objective_value, distances)
  | x :: rest, best_candidate, best_objective_value, distances =>
    let candidate := sampleIndex inp.size x
    match one_median_approx_row candidate inp witnesses 0 distances with
    | .error e => .error e
    | .ok (objective, distances1) =>
      if objective < best_objective_value then
        one_median_approx_loop inp witnesses rest candidate objective distances1
      else
        one_median_approx_loop inp witnesses rest best_candidate best_objective_value
          distances1

/-- `one_median_approx` (lines 215-259). The two sample sequences drawn from
the external generator, `ugen.get(s)` with `s = 60` and `ugen.get(t)` with
`t = ceil(log(60) / epsilon^2)`, are parameters; `epsilon` enters only through
the length of `witnesses`. -/
def one_median_approx (candidates witnesses : List ℚ) (inp : Curves) : Except Fault Outcome :=
  let distances := Distances.fresh inp.size
  match one_median_approx_loop inp witnesses candidates 0 ⊤ distances with
  | .error e => .error e
  | .ok (best_candidate, _, distances1) =>
    let centers : Centers := [best_candidate]
    match center_cost_sum inp centers distances1 with
    | .error e => .error e
    | .ok (value, distances2) =>
      .ok { result := { centers := centers, value := some value, assignment := [] },
            distances := some distances2 }

/-- The inner loop of `one_median_exhaustive` (lines 278-281). -/
def one_median_exhaustive_row (i : Nat) (inp : Curves) :
    List Nat → distance_t → Distances → Except Fault (distance_t × Distances)
  | [], objective, distances => .ok (objective, distances)
  | j :: rest, objective, distances =>
    match cheap_dist i j inp distances with
    | .error e => .error e
    | .ok distances1 =>
      one_median_exhaustive_row i inp rest
        (double_add objective ((distances1.cell i j : ℚ) : distance_t)) distances1

/-- The outer loop of `one_median_exhaustive` (lines 274-287). -/
def one_median_exhaustive_loop (inp : Curves) :
    List Nat → Nat → distance_t → Distances → Except Fault (Nat × distance_t × Distances)
  | [], best_candidate, best_objective_value, distances =>
    .ok (best_candidate, best_objective_value, distances)
  | i :: rest, best_candidate, best_objective_value, distances =>
    match one_median_exhaustive_row i inp (List.range inp.size) 0 distances with
    | .error e => .error e
    | .ok (objective, distances1) =>
      if objective < best_objective_value then
        one_median_exhaustive_loop inp rest i objective distances1
      else
        one_median_exhaustive_loop inp rest best_candidate best_objective_value distances1

/-- `one_median_exhaustive` (lines 261-294). -/
def one_median_exhaustive (inp : Curves) : Except Fault Outcome :=
  let distances := Distances.fresh inp.size
  match one_median_exhaustive_loop inp (List.range inp.size) 0 ⊤ distances with
  | .error e => .error e
  | .ok (best_candidate, best_objective_value, distances1) =>
    .ok { result := { centers := [best_candidate], value := some best_objective_value,
                      assignment := [] },
          distances := some distances1 }

/-- The table of the example scenario: four curves with pairwise distances
`[[0,1,5,5],[1,0,5,5],[5,5,0,2],[5,5,2,0]]`. -/
def exampleCurves : Curves where
  size := 4
  dist := fun i j =>
    (([[0, 1, 5, 5], [1, 0, 5, 5], [5, 5, 0, 2], [5, 5, 2, 0]] : List (List ℚ)).getD i []).getD j 0

/-! ## Specification-level notions and invariants -/

/-- Specification: the distance the seeding looks up for a pair of curves. -/
def Curves.lookup (inp : Curves) (i j : Nat) : ℚ := if i = j then 0 else inp.dist i j

/-- Specification: distance from curve `i` to the nearest of `centers`. -/
def nearestDistance (e : Nat → Nat → ℚ) (i : Nat) (centers : List Nat) : distance_t :=
  (centers.map (e i)).minimum

/-- Specification: total cost of `centers`, the sum over the curves `i < n` of
the distance from `i` to its nearest center, summed in doubles in the order of
the curve indices. -/
def totalCost (e : Nat → Nat → ℚ) (n : Nat) (centers : List Nat) : distance_t :=
  (List.range n).foldl (fun cost i => double_add cost (nearestDistance e i centers)) 0

/-- Invariant of the distance table for a collection `inp`, relative to a
predicate `P i j v` ("`v` is an admissible filled value of cell `(i, j)`"): the
table is square of the right size and symmetric, every filled cell (`0 ≤`) holds
an admissible value, and for every unfilled cell the oracle would return a
non-negative value admissible for the cell and its mirror. -/
structure CacheInv (inp : Curves) (P : Nat → Nat → ℚ → Prop) (M : Distances) : Prop where
  size_eq : M.size = inp.size
  symm : ∀ i j, M.cell i j = M.cell j i
  filled : ∀ i j, i < inp.size → j < inp.size → 0 ≤ M.cell i j → P i j (M.cell i j)
  unfilled : ∀ i j, i < inp.size → j < inp.size → M.cell i j < 0 →
    0 ≤ inp.dist i j ∧ P i j (inp.dist i j) ∧ P j i (inp.dist i j)

/-- `M1` keeps every filled cell of `M`. -/
def Distances.Extends (M M1 : Distances) : Prop :=
  ∀ a b, 0 ≤ M.cell a b → M1.cell a b = M.cell a b

/-- The scan of lines 144-153 over a given cost function `f` in place of
`curve_cost`: the running maximum and the first curve that reached it. -/
def scanMax (f : Nat → distance_t) : List Nat → distance_t → Nat → distance_t × Nat
  | [], curr_maxdist, curr_maxcurve => (curr_maxdist, curr_maxcurve)
  | j :: rest, curr_maxdist, curr_maxcurve =>
    if f j > curr_maxdist then scanMax f rest (f j) j
    else scanMax f rest curr_maxdist curr_maxcurve

/-- The seeding passes of lines 137-160 over a given distance function `e` in
place of the cached table. -/
def seedPure (e : Nat → Nat → ℚ) (n : Nat) : Nat → List Nat → distance_t → List Nat × distance_t
  | 0, centers, curr_maxdist => (centers, curr_maxdist)
  | passes + 1, centers, _ =>
    let r := scanMax (fun j => nearestDistance e j centers) (List.range n) 0 0
    seedPure e n passes (centers ++ [r.2]) r.1

/-- Specification: `c` is the farthest-first choice after the centers `prev`,
the smallest curve index that maximises the distance to the nearest of `prev`. -/
def IsFarthestFirst (e : Nat → Nat → ℚ) (n : Nat) (prev : List Nat) (c : Nat) : Prop :=
  c < n ∧ (∀ j < n, nearestDistance e j prev ≤ nearestDistance e c prev) ∧
    (∀ j < c, nearestDistance e j prev < nearestDistance e c prev)

/-- Specification: `v` is the k-center objective of `centers`, the maximum over
all curves `i < n` of the distance from `i` to its nearest center. -/
def IsKCenterObjective (e : Nat → Nat → ℚ) (n : Nat) (centers : List Nat) (v : distance_t) :
    Prop :=
  (∃ i < n, nearestDistance e i centers = v) ∧ ∀ i < n, nearestDistance e i centers ≤ v

/-- The scan of lines 274-287 (and 236-252) over a given objective function
`g`: the running minimum and the first candidate that reached it. -/
def scanMin (g : Nat → distance_t) : List Nat → Nat → distance_t → Nat × distance_t
  | [], best_candidate, best_objective_value => (best_candidate, best_objective_value)
  | i :: rest, best_candidate, best_objective_value =>
    if g i < best_objective_value then scanMin g rest i (g i)
    else scanMin g rest best_candidate best_objective_value

/-- `cost` is the total cost of `centers` as the table holds it: every cell it
depends on is filled, and `cost` is the sum (in doubles, in the order of the
curve indices) over all curves of the smallest cell value towards a center. -/
def CostOf (inp : Curves) (M : Distances) (centers : List Nat) (cost : distance_t) : Prop :=
  (∀ i < inp.size, ∀ c ∈ centers, 0 ≤ M.cell i c) ∧ cost = totalCost M.cell inp.size centers

/-- Invariant of the refinement loops: the table is well-formed, `centers` are
`K` valid curve indices, and the variable `cost` is their total cost. -/
structure AryaState (inp : Curves) (P : Nat → Nat → ℚ → Prop) (K : Nat) (M : Distances)
    (centers : List Nat) (cost : distance_t) : Prop where
  inv : CacheInv inp P M
  len : centers.length = K
  bounded : ∀ c ∈ centers, c < inp.size
  cost_eq : CostOf inp M centers cost

/-- The values a filled cell of the table of `gonzalez` can hold: 0 (the
diagonal) and the oracle's values on pairs of valid indices. -/
def cellValues (inp : Curves) : Finset ℚ :=
  insert 0 ((Finset.range inp.size ×ˢ Finset.range inp.size).image
    (fun p => inp.dist p.1 p.2))

/-- The sums in doubles of `m` cell values: every total cost over `m` curves is
one of them. -/
def costValues (inp : Curves) : Nat → Finset distance_t
  | 0 => {0}
  | m + 1 => Finset.image₂ double_add (costValues inp m)
      ((cellValues inp).image (fun q => ((q : ℚ) : distance_t)))

/-- Admissible filled values of cell `(a, b)` in a run of `gonzalez`: a cell
value, which is the looked-up distance when the oracle is symmetric. -/
def Admissible (inp : Curves) (a b : Nat) (v : ℚ) : Prop :=
  v ∈ cellValues inp ∧
    ((∀ i < inp.size, ∀ j < inp.size, inp.dist i j = inp.dist j i) → v = inp.lookup a b)

/-- A finite sequence of calls `cheap_dist(i, j, in, distances)`, one after the
other on the same table. -/
def cheap_dist_calls (inp : Curves) : List (Nat × Nat) → Distances → Except Fault Distances
  | [], distances => .ok distances
  | (i, j) :: rest, distances =>
    match cheap_dist i j inp distances with
    | .error e => .error e
    | .ok distances1 => cheap_dist_calls inp rest distances1

/-- Admissible filled values of cell `(a, b)` when distinct curves are at
positive distance: 0 on the diagonal, positive elsewhere. -/
def Separating (a b : Nat) (v : ℚ) : Prop :=
  (a = b → v = 0) ∧ (a ≠ b → 0 < v)

/-- The value `distances[i][c]` holds right after the call
`cheap_dist(i, c, in, distances)`: the oracle's value when the cell was
unfilled, the cell as it was otherwise. -/
def Distances.afterCall (M : Distances) (inp : Curves) (i c : Nat) : ℚ :=
  if M.cell i c < 0 then inp.dist i c else M.cell i c

/-- Three curves with pairwise distances `[[0,100,100],[100,0,99],[100,99,0]]`:
replacing center 0 by curve 1 lowers the total cost from 200 to 199. -/
def smallGainCurves : Curves where
  size := 3
  dist := fun i j =>
    (([[0, 100, 100], [100, 0, 99], [100, 99, 0]] : List (List ℚ)).getD i []).getD j 0

theorem extends_refl (M : Distances) : M.Extends M := fun _ _ _ => rfl

theorem extends_trans {M M1 M2 : Distances} (h1 : M.Extends M1) (h2 : M1.Extends M2) :
    M.Extends M2 := by
  intro a b h
  have e1 := h1 a b h
  rw [h2 a b (by rw [e1]; exact h), e1]

theorem cheap_dist_total {inp : Curves} {M : Distances} {i j : Nat}
    (hs : M.size = inp.size) (hi : i < inp.size) (hj : j < inp.size) :
    ∃ M1, cheap_dist i j inp M = .ok M1 ∧ M1.size = inp.size := by
  unfold cheap_dist
  rw [hs]
  simp only [hi, hj, and_self, if_true]
  split
  · exact ⟨_, rfl, hs⟩
  · exact ⟨_, rfl, hs⟩

theorem cheap_dist_inv {inp : Curves} {P : Nat → Nat → ℚ → Prop} {M M1 : Distances} {i j : Nat}
    (hM : CacheInv inp P M) (hi : i < inp.size) (hj : j < inp.size)
    (h : cheap_dist i j inp M = .ok M1) :
    CacheInv inp P M1 ∧ M.Extends M1 ∧ 0 ≤ M1.cell i j := by
  unfold cheap_dist at h
  rw [hM.size_eq] at h
  simp only [hi, hj, and_self, if_true] at h
  split at h
  · rename_i hneg
    have hu := hM.unfilled i j hi hj hneg
    injection h with h
    subst h
    refine ⟨⟨hM.size_eq, ?_, ?_, ?_⟩, ?_, ?_⟩
    · intro a b
      simp only [Distances.write]
      split_ifs <;> first | rfl | exact hM.symm a b | (exfalso; tauto)
    · intro a b ha hb
      simp only [Distances.write]
      by_cases h1 : a = i ∧ b = j
      · obtain ⟨rfl, rfl⟩ := h1
        simp only [and_self, if_true, ite_self]; intro _; exact hu.2.1
      · by_cases h2 : a = j ∧ b = i
        · obtain ⟨rfl, rfl⟩ := h2
          simp only [and_self, if_true, ite_self]; intro _; exact hu.2.2
        · rw [if_neg h1, if_neg h2]; exact hM.filled a b ha hb
    · intro a b ha hb
      simp only [Distances.write]
      by_cases h1 : a = i ∧ b = j
      · obtain ⟨rfl, rfl⟩ := h1
        simp only [and_self, if_true, ite_self]; intro hlt
        exact absurd hu.1 (not_le.mpr hlt)
      · by_cases h2 : a = j ∧ b = i
        · obtain ⟨rfl, rfl⟩ := h2
          simp only [and_self, if_true, ite_self]; intro hlt
          exact absurd hu.1 (not_le.mpr hlt)
        · rw [if_neg h1, if_neg h2]; exact hM.unfilled a b ha hb
    · intro a b hab
      simp only [Distances.write]
      by_cases h1 : a = i ∧ b = j
      · rw [h1.1, h1.2] at hab; exact absurd hab (not_le.mpr hneg)
      · by_cases h2 : a = j ∧ b = i
        · rw [h2.1, h2.2, hM.symm] at hab; exact absurd hab (not_le.mpr hneg)
        · simp only [h1, h2, if_false]
    · simp only [Distances.write, and_self, if_true]; exact hu.1
  · rename_i hnn
    injection h with h
    subst h
    exact ⟨hM, extends_refl _, not_lt.mp hnn⟩

/-! ## Cost of a curve -/

theorem nearestDistance_congr {e e1 : Nat → Nat → ℚ} {i : Nat} {cs : List Nat}
    (h : ∀ c ∈ cs, e i c = e1 i c) : nearestDistance e i cs = nearestDistance e1 i cs := by
  unfold nearestDistance
  rw [List.map_congr_left h]

theorem curve_cost_loop_total {inp : Curves} {i : Nat} (hi : i < inp.size) :
    ∀ (cs : List Nat) (acc : distance_t) (M : Distances),
      (∀ c ∈ cs, c < inp.size) → M.size = inp.size →
      ∃ v M1, curve_cost_loop i inp cs acc M = .ok (v, M1) ∧ M1.size = inp.size := by
  intro cs
  induction cs with
  | nil => intro acc M _ hs; exact ⟨acc, M, rfl, hs⟩
  | cons c rest ih =>
    intro acc M hcs hs
    obtain ⟨M1, h1, hs1⟩ := cheap_dist_total hs hi (hcs c (List.mem_cons_self _ _))
    have hrest : ∀ x ∈ rest, x < inp.size := fun x hx => hcs x (List.mem_cons_of_mem _ hx)
    simp only [curve_cost_loop, h1]
    split
    · exact ih _ M1 hrest hs1
    · exact ih _ M1 hrest hs1

theorem curve_cost_total {inp : Curves} {i : Nat} {cs : List Nat} {M : Distances}
    (hi : i < inp.size) (hcs : ∀ c ∈ cs, c < inp.size) (hs : M.size = inp.size) :
    ∃ v M1, curve_cost i inp cs M = .ok (v, M1) ∧ M1.size = inp.size :=
  curve_cost_loop_total hi cs ⊤ M hcs hs

theorem curve_cost_loop_inv {inp : Curves} {P : Nat → Nat → ℚ → Prop} {i : Nat}
    (hi : i < inp.size) :
    ∀ (cs : List Nat) (acc : distance_t) (M : Distances) (v : distance_t) (M1 : Distances),
      (∀ c ∈ cs, c < inp.size) → CacheInv inp P M →
      curve_cost_loop i inp cs acc M = .ok (v, M1) →
      CacheInv inp P M1 ∧ M.Extends M1 ∧ (∀ c ∈ cs, 0 ≤ M1.cell i c) ∧
        v = min acc (nearestDistance M1.cell i cs) := by
  intro cs
  induction cs with
  | nil =>
    intro acc M v M1 _ hM h
    simp only [curve_cost_loop, Except.ok.injEq, Prod.mk.injEq] at h
    obtain ⟨rfl, rfl⟩ := h
    refine ⟨hM, extends_refl _, ?_, ?_⟩
    · intro c hc; cases hc
    · simp [nearestDistance]
  | cons c rest ih =>
    intro acc M v M1 hcs hM h
    have hc : c < inp.size := hcs c (List.mem_cons_self _ _)
    have hrest : ∀ x ∈ rest, x < inp.size := fun x hx => hcs x (List.mem_cons_of_mem _ hx)
    obtain ⟨M0, h0, -⟩ := cheap_dist_total hM.size_eq hi hc
    obtain ⟨hM0, hext0, hfill0⟩ := cheap_dist_inv hM hi hc h0
    simp only [curve_cost_loop, h0] at h
    have key : ∀ acc1 : distance_t, curve_cost_loop i inp rest acc1 M0 = .ok (v, M1) →
        acc1 = min acc ((M0.cell i c : ℚ) : distance_t) →
        CacheInv inp P M1 ∧ M.Extends M1 ∧ (∀ x ∈ c :: rest, 0 ≤ M1.cell i x) ∧
          v = min acc (nearestDistance M1.cell i (c :: rest)) := by
      intro acc1 hrun hacc
      obtain ⟨hM1, hext1, hfill1, hv⟩ := ih acc1 M0 v M1 hrest hM0 hrun
      have hcell : M1.cell i c = M0.cell i c := hext1 i c hfill0
      refine ⟨hM1, extends_trans hext0 hext1, ?_, ?_⟩
      · intro x hx
        rcases List.mem_cons.mp hx with rfl | hx
        · rw [hcell]; exact hfill0
        · exact hfill1 x hx
      · rw [hv, hacc]
        simp only [nearestDistance, List.map_cons, List.minimum_cons, hcell, min_assoc]
    split at h
    · rename_i hlt
      exact key _ h (by rw [min_eq_right (le_of_lt hlt)])
    · rename_i hnlt
      exact key _ h (by rw [min_eq_left (not_lt.mp hnlt)])

theorem curve_cost_inv {inp : Curves} {P : Nat → Nat → ℚ → Prop} {i : Nat} {cs : List Nat}
    {M M1 : Distances} {v : distance_t}
    (hi : i < inp.size) (hcs : ∀ c ∈ cs, c < inp.size) (hM : CacheInv inp P M)
    (h : curve_cost i inp cs M = .ok (v, M1)) :
    CacheInv inp P M1 ∧ M.Extends M1 ∧ (∀ c ∈ cs, 0 ≤ M1.cell i c) ∧
      v = nearestDistance M1.cell i cs := by
  obtain ⟨h1, h2, h3, h4⟩ := curve_cost_loop_inv hi cs ⊤ M v M1 hcs hM h
  exact ⟨h1, h2, h3, by rw [h4, min_eq_right le_top]⟩

/-! ## Arithmetic in doubles -/

theorem roundDouble_nonneg {q : ℚ} (h : 0 ≤ q) : 0 ≤ roundDouble q := by
  unfold roundDouble
  split_ifs with h0 hpos
  · exact le_refl _
  · positivity
  · exact absurd (lt_of_le_of_ne h (Ne.symm h0)) hpos

theorem double_add_nonneg {x y : distance_t} (hx : 0 ≤ x) (hy : 0 ≤ y) :
    0 ≤ double_add x y := by
  cases x with
  | none => exact le_top
  | some a =>
    cases y with
    | none => exact le_top
    | some b =>
      have ha : (0 : ℚ) ≤ a := WithTop.coe_nonneg.mp hx
      have hb : (0 : ℚ) ≤ b := WithTop.coe_nonneg.mp hy
      exact WithTop.coe_nonneg.mpr (roundDouble_nonneg (add_nonneg ha hb))

theorem foldl_double_add_congr {f g : Nat → distance_t} :
    ∀ (l : List Nat) (acc : distance_t), (∀ i ∈ l, f i = g i) →
      l.foldl (fun cost i => double_add cost (f i)) acc
        = l.foldl (fun cost i => double_add cost (g i)) acc := by
  intro l
  induction l with
  | nil => intro acc _; rfl
  | cons a rest ih =>
    intro acc h
    simp only [List.foldl_cons]
    rw [h a (List.mem_cons_self _ _)]
    exact ih _ (fun i hi => h i (List.mem_cons_of_mem _ hi))

theorem foldl_double_add_nonneg {f : Nat → distance_t} :
    ∀ (l : List Nat) (acc : distance_t), 0 ≤ acc → (∀ i ∈ l, 0 ≤ f i) →
      0 ≤ l.foldl (fun cost i => double_add cost (f i)) acc := by
  intro l
  induction l with
  | nil => intro acc hacc _; exact hacc
  | cons a rest ih =>
    intro acc hacc h
    simp only [List.foldl_cons]
    exact ih _ (double_add_nonneg hacc (h a (List.mem_cons_self _ _)))
      (fun i hi => h i (List.mem_cons_of_mem _ hi))

theorem center_cost_sum_loop_total {inp : Curves} {cs : List Nat}
    (hcs : ∀ c ∈ cs, c < inp.size) :
    ∀ (is : List Nat) (acc : distance_t) (M : Distances),
      (∀ i ∈ is, i < inp.size) → M.size = inp.size →
      ∃ v M1, center_cost_sum_loop inp cs is acc M = .ok (v, M1) ∧ M1.size = inp.size := by
  intro is
  induction is with
  | nil => intro acc M _ hs; exact ⟨acc, M, rfl, hs⟩
  | cons i rest ih =>
    intro acc M his hs
    obtain ⟨m, M0, h0, hs0⟩ := curve_cost_total (his i (List.mem_cons_self _ _)) hcs hs
    simp only [center_cost_sum_loop, h0]
    exact ih _ M0 (fun x hx => his x (List.mem_cons_of_mem _ hx)) hs0

theorem center_cost_sum_total {inp : Curves} {cs : List Nat} {M : Distances}
    (hcs : ∀ c ∈ cs, c < inp.size) (hs : M.size = inp.size) :
    ∃ v M1, center_cost_sum inp cs M = .ok (v, M1) ∧ M1.size = inp.size :=
  center_cost_sum_loop_total hcs _ 0 M (fun _ hi => List.mem_range.mp hi) hs

theorem center_cost_sum_loop_inv {inp : Curves} {P : Nat → Nat → ℚ → Prop} {cs : List Nat}
    (hcs : ∀ c ∈ cs, c < inp.size) :
    ∀ (is : List Nat) (acc : distance_t) (M : Distances) (v : distance_t) (M1 : Distances),
      (∀ i ∈ is, i < inp.size) → CacheInv inp P M →
      center_cost_sum_loop inp cs is acc M = .ok (v, M1) →
      CacheInv inp P M1 ∧ M.Extends M1 ∧ (∀ i ∈ is, ∀ c ∈ cs, 0 ≤ M1.cell i c) ∧
        v = is.foldl (fun cost i => double_add cost (nearestDistance M1.cell i cs)) acc := by
  intro is
  induction is with
  | nil =>
    intro acc M v M1 _ hM h
    simp only [center_cost_sum_loop, Except.ok.injEq, Prod.mk.injEq] at h
    obtain ⟨rfl, rfl⟩ := h
    refine ⟨hM, extends_refl _, ?_, rfl⟩
    intro i hi; cases hi
  | cons i rest ih =>
    intro acc M v M1 his hM h
    have hi : i < inp.size := his i (List.mem_cons_self _ _)
    obtain ⟨m, M0, h0, -⟩ := curve_cost_total hi hcs hM.size_eq
    obtain ⟨hM0, hext0, hfill0, hm⟩ := curve_cost_inv hi hcs hM h0
    simp only [center_cost_sum_loop, h0] at h
    obtain ⟨hM1, hext1, hfill1, hv⟩ :=
      ih _ M0 v M1 (fun x hx => his x (List.mem_cons_of_mem _ hx)) hM0 h
    have hsame : nearestDistance M1.cell i cs = nearestDistance M0.cell i cs :=
      nearestDistance_congr (fun c hc => hext1 i c (hfill0 c hc))
    refine ⟨hM1, extends_trans hext0 hext1, ?_, ?_⟩
    · intro x hx c hc
      rcases List.mem_cons.mp hx with rfl | hx
      · rw [hext1 _ c (hfill0 c hc)]; exact hfill0 c hc
      · exact hfill1 x hx c hc
    · rw [hv, hm, List.foldl_cons, hsame]

theorem center_cost_sum_inv {inp : Curves} {P : Nat → Nat → ℚ → Prop} {cs : List Nat}
    {M M1 : Distances} {v : distance_t}
    (hcs : ∀ c ∈ cs, c < inp.size) (hM : CacheInv inp P M)
    (h : center_cost_sum inp cs M = .ok (v, M1)) :
    CacheInv inp P M1 ∧ M.Extends M1 ∧ (∀ i < inp.size, ∀ c ∈ cs, 0 ≤ M1.cell i c) ∧
      v = totalCost M1.cell inp.size cs := by
  obtain ⟨h1, h2, h3, h4⟩ :=
    center_cost_sum_loop_inv hcs _ 0 M v M1 (fun _ hi => List.mem_range.mp hi) hM h
  exact ⟨h1, h2, fun i hi => h3 i (List.mem_range.mpr hi), h4⟩

/-! ## Tables that agree with a distance function -/

theorem nearestDistance_of_consistent {inp : Curves} {e : Nat → Nat → ℚ} {M : Distances}
    {i : Nat} {cs : List Nat} (hM : CacheInv inp (fun a b v => v = e a b) M)
    (hi : i < inp.size) (hcs : ∀ c ∈ cs, c < inp.size) (hfill : ∀ c ∈ cs, 0 ≤ M.cell i c) :
    nearestDistance M.cell i cs = nearestDistance e i cs :=
  nearestDistance_congr (fun c hc => hM.filled i c hi (hcs c hc) (hfill c hc))

theorem totalCost_of_consistent {inp : Curves} {e : Nat → Nat → ℚ} {M : Distances}
    {cs : List Nat} (hM : CacheInv inp (fun a b v => v = e a b) M)
    (hcs : ∀ c ∈ cs, c < inp.size) (hfill : ∀ i < inp.size, ∀ c ∈ cs, 0 ≤ M.cell i c) :
    totalCost M.cell inp.size cs = totalCost e inp.size cs := by
  unfold totalCost
  apply foldl_double_add_congr
  intro i hi
  exact nearestDistance_of_consistent hM (List.mem_range.mp hi) hcs (hfill i (List.mem_range.mp hi))

theorem nearestDistance_nonneg {e : Nat → Nat → ℚ} {i : Nat} {cs : List Nat}
    (h : ∀ c ∈ cs, 0 ≤ e i c) : (0 : distance_t) ≤ nearestDistance e i cs := by
  unfold nearestDistance
  apply List.le_minimum_of_forall_le
  intro a ha
  obtain ⟨c, hc, rfl⟩ := List.mem_map.mp ha
  exact_mod_cast h c hc

/-! ## One seeding pass -/

theorem gonzalez_scan_total {inp : Curves} {cs : List Nat} (hcs : ∀ c ∈ cs, c < inp.size) :
    ∀ (js : List Nat) (md : distance_t) (mc : Nat) (M : Distances),
      (∀ j ∈ js, j < inp.size) → M.size = inp.size → mc < inp.size →
      ∃ md1 mc1 M1, gonzalez_scan inp cs js md mc M = .ok (md1, mc1, M1) ∧
        M1.size = inp.size ∧ mc1 < inp.size := by
  intro js
  induction js with
  | nil => intro md mc M _ hs hmc; exact ⟨md, mc, M, rfl, hs, hmc⟩
  | cons j rest ih =>
    intro md mc M hjs hs hmc
    have hj : j < inp.size := hjs j (List.mem_cons_self _ _)
    obtain ⟨v, M0, h0, hs0⟩ := curve_cost_total hj hcs hs
    have hrest : ∀ x ∈ rest, x < inp.size := fun x hx => hjs x (List.mem_cons_of_mem _ hx)
    simp only [gonzalez_scan, h0]
    split
    · exact ih _ j M0 hrest hs0 hj
    · exact ih _ mc M0 hrest hs0 hmc

theorem scanMax_congr {f g : Nat → distance_t} :
    ∀ (js : List Nat) (md : distance_t) (mc : Nat), (∀ j ∈ js, f j = g j) →
      scanMax f js md mc = scanMax g js md mc := by
  intro js
  induction js with
  | nil => intro md mc _; rfl
  | cons j rest ih =>
    intro md mc h
    have hj := h j (List.mem_cons_self _ _)
    have hrest : ∀ x ∈ rest, f x = g x := fun x hx => h x (List.mem_cons_of_mem _ hx)
    simp only [scanMax, hj]
    split
    · exact ih _ _ hrest
    · exact ih _ _ hrest

theorem gonzalez_scan_inv {inp : Curves} {P : Nat → Nat → ℚ → Prop} {cs : List Nat}
    (hcs : ∀ c ∈ cs, c < inp.size) :
    ∀ (js : List Nat) (md : distance_t) (mc : Nat) (M : Distances) (md1 : distance_t)
      (mc1 : Nat) (M1 : Distances),
      (∀ j ∈ js, j < inp.size) → CacheInv inp P M →
      gonzalez_scan inp cs js md mc M = .ok (md1, mc1, M1) →
      CacheInv inp P M1 ∧ M.Extends M1 ∧ (∀ j ∈ js, ∀ c ∈ cs, 0 ≤ M1.cell j c) ∧
        (md1, mc1) = scanMax (fun j => nearestDistance M1.cell j cs) js md mc := by
  intro js
  induction js with
  | nil =>
    intro md mc M md1 mc1 M1 _ hM h
    simp only [gonzalez_scan, Except.ok.injEq, Prod.mk.injEq] at h
    obtain ⟨rfl, rfl, rfl⟩ := h
    refine ⟨hM, extends_refl _, ?_, rfl⟩
    intro j hj; cases hj
  | cons j rest ih =>
    intro md mc M md1 mc1 M1 hjs hM h
    have hj : j < inp.size := hjs j (List.mem_cons_self _ _)
    have hrest : ∀ x ∈ rest, x < inp.size := fun x hx => hjs x (List.mem_cons_of_mem _ hx)
    obtain ⟨v, M0, h0, -⟩ := curve_cost_total hj hcs hM.size_eq
    obtain ⟨hM0, hext0, hfill0, hv⟩ := curve_cost_inv hj hcs hM h0
    simp only [gonzalez_scan, h0] at h
    have key : ∀ (md0 : distance_t) (mc0 : Nat),
        gonzalez_scan inp cs rest md0 mc0 M0 = .ok (md1, mc1, M1) →
        CacheInv inp P M1 ∧ M.Extends M1 ∧ (∀ x ∈ j :: rest, ∀ c ∈ cs, 0 ≤ M1.cell x c) ∧
          (md1, mc1) = scanMax (fun x => nearestDistance M1.cell x cs) rest md0 mc0 ∧
          v = nearestDistance M1.cell j cs := by
      intro md0 mc0 hrun
      obtain ⟨hM1, hext1, hfill1, hres⟩ := ih md0 mc0 M0 md1 mc1 M1 hrest hM0 hrun
      refine ⟨hM1, extends_trans hext0 hext1, ?_, hres, ?_⟩
      · intro x hx c hc
        rcases List.mem_cons.mp hx with rfl | hx
        · rw [hext1 _ c (hfill0 c hc)]; exact hfill0 c hc
        · exact hfill1 x hx c hc
      · rw [hv]
        exact nearestDistance_congr (fun c hc => (hext1 j c (hfill0 c hc)).symm)
    split at h
    · rename_i hgt
      obtain ⟨a, b, c, d, hv1⟩ := key _ _ h
      refine ⟨a, b, c, ?_⟩
      rw [d]
      simp only [scanMax]
      rw [← hv1, if_pos hgt]
    · rename_i hngt
      obtain ⟨a, b, c, d, hv1⟩ := key _ _ h
      refine ⟨a, b, c, ?_⟩
      rw [d]
      simp only [scanMax]
      rw [← hv1, if_neg hngt]

/-- What one scan over the curves `0 .. s-1` has established: the running
maximum is attained at the recorded curve, bounds every cost seen, and strictly
exceeds the cost of every earlier curve. -/
theorem scanMax_range_spec {f : Nat → distance_t} (hf : 0 ≤ f 0) :
    ∀ (len s : Nat) (md : distance_t) (mc : Nat),
      ((s = 0 → md = 0 ∧ mc = 0) ∧ (0 < s → mc < s ∧ md = f mc) ∧
        (∀ j < s, f j ≤ md) ∧ (∀ j < mc, f j < md)) →
      let r := scanMax f (List.range' s len) md mc
      ((s + len = 0 → r.1 = 0 ∧ r.2 = 0) ∧ (0 < s + len → r.2 < s + len ∧ r.1 = f r.2) ∧
        (∀ j < s + len, f j ≤ r.1) ∧ (∀ j < r.2, f j < r.1)) := by
  intro len
  induction len with
  | zero => intro s md mc h; simpa [scanMax] using h
  | succ len ih =>
    intro s md mc h
    obtain ⟨h0, hpos, hle, hlt⟩ := h
    simp only [List.range'_succ, scanMax]
    have hidx : s + (len + 1) = (s + 1) + len := by omega
    rw [hidx]
    split
    · rename_i hgt
      apply ih (s + 1) (f s) s
      refine ⟨by omega, fun _ => ⟨by omega, rfl⟩, ?_, ?_⟩
      · intro j hj
        rcases Nat.lt_succ_iff_lt_or_eq.mp hj with hj | rfl
        · exact le_of_lt (lt_of_le_of_lt (hle j hj) hgt)
        · exact le_rfl
      · intro j hj
        exact lt_of_le_of_lt (hle j hj) hgt
    · rename_i hngt
      have hsle : f s ≤ md := not_lt.mp hngt
      apply ih (s + 1) md mc
      refine ⟨by omega, fun _ => ?_, ?_, hlt⟩
      · rcases Nat.eq_zero_or_pos s with hs | hs
        · obtain ⟨hmd, hmc⟩ := h0 hs
          subst hs
          refine ⟨by omega, ?_⟩
          rw [hmc]
          rw [hmd] at hsle
          rw [hmd]
          exact le_antisymm hf hsle
        · exact ⟨by have := (hpos hs).1; omega, (hpos hs).2⟩
      · intro j hj
        rcases Nat.lt_succ_iff_lt_or_eq.mp hj with hj | rfl
        · exact hle j hj
        · exact hsle

theorem scanMax_spec {f : Nat → distance_t} (hf : 0 ≤ f 0) {n : Nat} (hn : 0 < n) :
    let r := scanMax f (List.range n) 0 0
    r.2 < n ∧ r.1 = f r.2 ∧ (∀ j < n, f j ≤ f r.2) ∧ (∀ j < r.2, f j < f r.2) := by
  have h := scanMax_range_spec hf n 0 0 0
    ⟨fun _ => ⟨rfl, rfl⟩, fun h => absurd h (lt_irrefl 0), fun j hj => absurd hj (Nat.not_lt_zero j),
      fun j hj => absurd hj (Nat.not_lt_zero j)⟩
  simp only [zero_add, ← List.range_eq_range'] at h
  obtain ⟨-, h2, h3, h4⟩ := h
  obtain ⟨h5, h6⟩ := h2 hn
  intro r
  refine ⟨h5, h6, ?_, ?_⟩
  · intro j hj; have := h3 j hj; rw [h6] at this; exact this
  · intro j hj; have := h4 j hj; rw [h6] at this; exact this

/-! ## The seeding loop -/

theorem gonzalez_seed_total {inp : Curves} (hn : 0 < inp.size) :
    ∀ (passes : Nat) (cs : List Nat) (md : distance_t) (M : Distances),
      (∀ c ∈ cs, c < inp.size) → M.size = inp.size →
      ∃ t md1 M1, gonzalez_seed inp passes cs md M = .ok (cs ++ t, md1, M1) ∧
        M1.size = inp.size ∧ (∀ c ∈ t, c < inp.size) ∧ t.length = passes := by
  intro passes
  induction passes with
  | zero =>
    intro cs md M _ hs
    refine ⟨[], md, M, by simp [gonzalez_seed], hs, ?_, rfl⟩
    intro c hc; cases hc
  | succ p ih =>
    intro cs md M hcs hs
    obtain ⟨md0, mc0, M0, h0, hs0, hmc0⟩ :=
      gonzalez_scan_total hcs (List.range inp.size) 0 0 M (fun _ hj => List.mem_range.mp hj) hs hn
    have hcs0 : ∀ c ∈ cs ++ [mc0], c < inp.size := by
      intro c hc
      rcases List.mem_append.mp hc with hc | hc
      · exact hcs c hc
      · rw [List.mem_singleton.mp hc]; exact hmc0
    obtain ⟨t, md1, M1, h1, hs1, ht, hlen⟩ := ih (cs ++ [mc0]) md0 M0 hcs0 hs0
    refine ⟨mc0 :: t, md1, M1, ?_, hs1, ?_, by simp [hlen]⟩
    · simp only [gonzalez_seed, h0, h1, List.append_assoc, List.singleton_append]
    · intro c hc
      rcases List.mem_cons.mp hc with rfl | hc
      · exact hmc0
      · exact ht c hc

theorem gonzalez_seed_inv {inp : Curves} {e : Nat → Nat → ℚ} (hn : 0 < inp.size) :
    ∀ (passes : Nat) (cs : List Nat) (md : distance_t) (M : Distances) (cs1 : List Nat)
      (md1 : distance_t) (M1 : Distances),
      (∀ c ∈ cs, c < inp.size) → CacheInv inp (fun a b v => v = e a b) M →
      gonzalez_seed inp passes cs md M = .ok (cs1, md1, M1) →
      CacheInv inp (fun a b v => v = e a b) M1 ∧ M.Extends M1 ∧
        (cs1, md1) = seedPure e inp.size passes cs md := by
  intro passes
  induction passes with
  | zero =>
    intro cs md M cs1 md1 M1 _ hM h
    simp only [gonzalez_seed, Except.ok.injEq, Prod.mk.injEq] at h
    obtain ⟨rfl, rfl, rfl⟩ := h
    exact ⟨hM, extends_refl _, rfl⟩
  | succ p ih =>
    intro cs md M cs1 md1 M1 hcs hM h
    have hrange : ∀ j ∈ List.range inp.size, j < inp.size := fun _ hj => List.mem_range.mp hj
    obtain ⟨md0, mc0, M0, h0, -, hmc0⟩ :=
      gonzalez_scan_total hcs (List.range inp.size) 0 0 M hrange hM.size_eq hn
    obtain ⟨hM0, hext0, hfill0, hres⟩ := gonzalez_scan_inv hcs _ 0 0 M md0 mc0 M0 hrange hM h0
    have hpure : (md0, mc0) =
        scanMax (fun j => nearestDistance e j cs) (List.range inp.size) 0 0 := by
      rw [hres]
      apply scanMax_congr
      intro j hj
      exact nearestDistance_of_consistent hM0 (hrange j hj) hcs (hfill0 j hj)
    have hcs0 : ∀ c ∈ cs ++ [mc0], c < inp.size := by
      intro c hc
      rcases List.mem_append.mp hc with hc | hc
      · exact hcs c hc
      · rw [List.mem_singleton.mp hc]; exact hmc0
    simp only [gonzalez_seed, h0] at h
    obtain ⟨hM1, hext1, hres1⟩ := ih (cs ++ [mc0]) md0 M0 cs1 md1 M1 hcs0 hM0 h
    refine ⟨hM1, extends_trans hext0 hext1, ?_⟩
    rw [hres1]
    simp only [seedPure, ← hpure]

/-- The pure seeding appends, pass after pass, the farthest-first choice for
the centers chosen so far, and ends with the cost of the last choice. -/
theorem seedPure_spec {e : Nat → Nat → ℚ} {n : Nat} (hn : 0 < n)
    (he : ∀ i j, i < n → j < n → 0 ≤ e i j) :
    ∀ (passes : Nat) (cs : List Nat) (md : distance_t), (∀ c ∈ cs, c < n) →
      ∃ t, (seedPure e n passes cs md).1 = cs ++ t ∧ t.length = passes ∧
        (∀ q < passes, ∃ c, t[q]? = some c ∧ IsFarthestFirst e n (cs ++ t.take q) c) ∧
        (passes = 0 → (seedPure e n passes cs md).2 = md) ∧
        (0 < passes → ∃ c, t[passes - 1]? = some c ∧
          (seedPure e n passes cs md).2 = nearestDistance e c (cs ++ t.take (passes - 1))) := by
  intro passes
  induction passes with
  | zero =>
    intro cs md _
    refine ⟨[], by simp [seedPure], rfl, ?_, fun _ => rfl, fun h => absurd h (lt_irrefl 0)⟩
    intro q hq; exact absurd hq (Nat.not_lt_zero q)
  | succ p ih =>
    intro cs md hcs
    have hf0 : (0 : distance_t) ≤ nearestDistance e 0 cs :=
      nearestDistance_nonneg (fun c hc => he 0 c hn (hcs c hc))
    have hscan := scanMax_spec (f := fun j => nearestDistance e j cs) hf0 hn
    simp only at hscan
    generalize hr : scanMax (fun j => nearestDistance e j cs) (List.range n) 0 0 = r at hscan
    obtain ⟨hlt, hval, hmax, hfirst⟩ := hscan
    have hcs0 : ∀ c ∈ cs ++ [r.2], c < n := by
      intro c hc
      rcases List.mem_append.mp hc with hc | hc
      · exact hcs c hc
      · rw [List.mem_singleton.mp hc]; exact hlt
    obtain ⟨t, ht, hlen, hall, hzero, hlast⟩ := ih (cs ++ [r.2]) r.1 hcs0
    have hunf : seedPure e n (p + 1) cs md = seedPure e n p (cs ++ [r.2]) r.1 := by
      simp only [seedPure, hr]
    rw [hunf]
    refine ⟨r.2 :: t, by simp [ht], by simp [hlen], ?_, fun h => by omega, fun _ => ?_⟩
    · intro q hq
      rcases Nat.eq_zero_or_pos q with rfl | hqpos
      · exact ⟨r.2, by simp, by simpa using ⟨hlt, hmax, hfirst⟩⟩
      · obtain ⟨q1, rfl⟩ : ∃ q1, q = q1 + 1 := ⟨q - 1, by omega⟩
        obtain ⟨c, hc, hff⟩ := hall q1 (by omega)
        exact ⟨c, by simpa using hc, by simpa using hff⟩
    · rcases Nat.eq_zero_or_pos p with rfl | hp
      · refine ⟨r.2, by simp, ?_⟩
        rw [hzero rfl]
        simpa using hval
      · obtain ⟨c, hc, hv⟩ := hlast hp
        obtain ⟨p1, rfl⟩ : ∃ p1, p = p1 + 1 := ⟨p - 1, by omega⟩
        exact ⟨c, by simpa using hc, by simpa using hv⟩

/-! ## The table `gonzalez` starts from -/

theorem zeroDiagonal_spec (n : Nat) (M : Distances) :
    (Distances.zeroDiagonal n M).size = M.size ∧
      (Distances.zeroDiagonal n M).oracleCalls = M.oracleCalls ∧
      ∀ a b, (Distances.zeroDiagonal n M).cell a b = if a = b ∧ a < n then 0 else M.cell a b := by
  induction n with
  | zero => simp [Distances.zeroDiagonal]
  | succ n ih =>
    obtain ⟨h1, h2, h3⟩ := ih
    have hstep : Distances.zeroDiagonal (n + 1) M = (Distances.zeroDiagonal n M).write n n 0 := by
      simp [Distances.zeroDiagonal, List.range_succ, List.foldl_append]
    rw [hstep]
    refine ⟨h1, h2, ?_⟩
    intro a b
    simp only [Distances.write, h3]
    by_cases hab : a = b
    · subst hab
      by_cases han : a = n
      · subst han; simp
      · by_cases hlt : a < n
        · have : a < n + 1 := by omega
          simp [han, hlt, this]
        · have : ¬ a < n + 1 := by omega
          simp [han, hlt, this]
    · have : ¬ (a = n ∧ b = n) := by rintro ⟨rfl, rfl⟩; exact hab rfl
      simp [hab, this]

theorem gonzalez_start_size (inp : Curves) :
    (Distances.zeroDiagonal inp.size (Distances.fresh inp.size)).size = inp.size :=
  (zeroDiagonal_spec _ _).1

theorem gonzalez_start_inv {inp : Curves}
    (hsym : ∀ i j, i < inp.size → j < inp.size → inp.dist i j = inp.dist j i)
    (hnn : ∀ i j, i < inp.size → j < inp.size → 0 ≤ inp.dist i j) :
    CacheInv inp (fun a b v => v = inp.lookup a b)
      (Distances.zeroDiagonal inp.size (Distances.fresh inp.size)) := by
  obtain ⟨h1, -, h3⟩ := zeroDiagonal_spec inp.size (Distances.fresh inp.size)
  refine ⟨h1, ?_, ?_, ?_⟩
  · intro i j
    rw [h3, h3]
    by_cases hij : i = j
    · subst hij; rfl
    · have hji : ¬ j = i := fun h => hij h.symm
      simp [hij, hji, Distances.fresh]
  · intro i j hi hj
    rw [h3]
    by_cases hij : i = j
    · subst hij; simp [hi, Curves.lookup]
    · simp [hij, Distances.fresh]
  · intro i j hi hj
    rw [h3]
    by_cases hij : i = j
    · subst hij; simp [hi]
    · have hji : ¬ j = i := fun h => hij h.symm
      intro _
      refine ⟨hnn i j hi hj, ?_, ?_⟩
      · simp [Curves.lookup, hij]
      · simp [Curves.lookup, hji, hsym i j hi hj]

theorem lookup_nonneg {inp : Curves}
    (hnn : ∀ i j, i < inp.size → j < inp.size → 0 ≤ inp.dist i j) :
    ∀ i j, i < inp.size → j < inp.size → 0 ≤ inp.lookup i j := by
  intro i j hi hj
  unfold Curves.lookup
  split
  · exact le_rfl
  · exact hnn i j hi hj

/-- Unfolding of `gonzalez` without refinement and without assignment on a
non-empty collection. -/
theorem gonzalez_plain_eq {inp : Curves} (hn : 0 < inp.size) (fuel k : Nat) {cs : List Nat}
    {md : distance_t} {M1 : Distances}
    (h : gonzalez_seed inp (k - 1) [0] 0
      (Distances.zeroDiagonal inp.size (Distances.fresh inp.size)) = .ok (cs, md, M1)) :
    gonzalez fuel k inp false false =
      .ok { result := { centers := cs, value := some md, assignment := [] },
            distances := some M1 } := by
  have hne : inp.size ≠ 0 := by omega
  simp [gonzalez, hne, h]

/-- The seeding run of `gonzalez` for a symmetric non-negative oracle: it
succeeds, and its centers and value are those of the pure seeding over the
looked-up distance. -/
theorem gonzalez_seed_run {inp : Curves} (hn : 0 < inp.size)
    (hsym : ∀ i j, i < inp.size → j < inp.size → inp.dist i j = inp.dist j i)
    (hnn : ∀ i j, i < inp.size → j < inp.size → 0 ≤ inp.dist i j) (k : Nat) :
    ∃ cs md M1, gonzalez_seed inp (k - 1) [0] 0
        (Distances.zeroDiagonal inp.size (Distances.fresh inp.size)) = .ok (cs, md, M1) ∧
      CacheInv inp (fun a b v => v = inp.lookup a b) M1 ∧
      (cs, md) = seedPure inp.lookup inp.size (k - 1) [0] 0 := by
  have h0 : ∀ c ∈ [0], c < inp.size := by
    intro c hc; rw [List.mem_singleton.mp hc]; exact hn
  obtain ⟨t, md, M1, hrun, -, -, -⟩ :=
    gonzalez_seed_total hn (k - 1) [0] 0 _ h0 (gonzalez_start_size inp)
  obtain ⟨hM1, -, hres⟩ :=
    gonzalez_seed_inv hn (k - 1) [0] 0 _ _ md M1 h0 (gonzalez_start_inv hsym hnn) hrun
  exact ⟨_, md, M1, hrun, hM1, hres⟩

/-! ## Claims about the seeding -/

/-- C1. For a non-empty collection with a symmetric non-negative oracle and
`k ≥ 2`, `gonzalez(k, curves)` without refinement returns `k` centers, the
first of which is curve 0, and the center at each position `m` with
`1 ≤ m < k` is the smallest curve index that maximises the distance to the
nearest of the centers at positions `< m` (distances as the code looks them up:
0 for a curve and itself, the oracle otherwise). On the table of the example
scenario with `k = 2` the centers are `[0, 2]`. -/
theorem gonzalez_farthest_first (inp : Curves) (k fuel : Nat) (hn : 0 < inp.size) (hk : 2 ≤ k)
    (hsym : ∀ i < inp.size, ∀ j < inp.size, inp.dist i j = inp.dist j i)
    (hnn : ∀ i < inp.size, ∀ j < inp.size, 0 ≤ inp.dist i j) :
    (∃ out, gonzalez fuel k inp false false = .ok out ∧
      out.result.centers.length = k ∧ out.result.centers[0]? = some 0 ∧
      ∀ m, 1 ≤ m → m < k → ∃ c, out.result.centers[m]? = some c ∧
        IsFarthestFirst inp.lookup inp.size (out.result.centers.take m) c) ∧
    (gonzalez 0 2 exampleCurves false false).toOption.map (fun o => o.result.centers)
      = some [0, 2] := by
  refine ⟨?_, by decide⟩
  have hsym1 : ∀ i j, i < inp.size → j < inp.size → inp.dist i j = inp.dist j i :=
    fun i j hi hj => hsym i hi j hj
  have hnn1 : ∀ i j, i < inp.size → j < inp.size → 0 ≤ inp.dist i j :=
    fun i j hi hj => hnn i hi j hj
  obtain ⟨cs, md, M1, hrun, -, hres⟩ := gonzalez_seed_run hn hsym1 hnn1 k
  have h0 : ∀ c ∈ [0], c < inp.size := by
    intro c hc; rw [List.mem_singleton.mp hc]; exact hn
  obtain ⟨t, ht, hlen, hall, -, -⟩ :=
    seedPure_spec hn (lookup_nonneg hnn1) (k - 1) [0] 0 h0
  rw [← hres] at ht
  simp only at ht
  subst ht
  refine ⟨_, gonzalez_plain_eq hn fuel k hrun, ?_, by simp, ?_⟩
  · simp only [List.length_append, List.length_singleton, hlen]; omega
  · intro m hm1 hmk
    obtain ⟨q, rfl⟩ : ∃ q, m = q + 1 := ⟨m - 1, by omega⟩
    obtain ⟨c, hc, hff⟩ := hall q (by omega)
    exact ⟨c, by simpa using hc, by simpa using hff⟩

/-- Witness for C1 on the example table with `k = 2`. -/
theorem gonzalez_farthest_first_witness :
    (∃ out, gonzalez 0 2 exampleCurves false false = .ok out ∧
      out.result.centers.length = 2 ∧ out.result.centers[0]? = some 0 ∧
      ∀ m, 1 ≤ m → m < 2 → ∃ c, out.result.centers[m]? = some c ∧
        IsFarthestFirst exampleCurves.lookup exampleCurves.size (out.result.centers.take m) c) ∧
    (gonzalez 0 2 exampleCurves false false).toOption.map (fun o => o.result.centers)
      = some [0, 2] :=
  gonzalez_farthest_first exampleCurves 2 0 (by decide) (by decide) (by decide) (by decide)

/-- C10. On a non-empty collection `gonzalez(k, curves)` without refinement
returns exactly `k` centers when `k ≥ 1` and exactly the one center `0` when
`k = 0`; in both cases the center at position 0 is curve 0. No assumption on
the oracle is needed. -/
theorem gonzalez_center_count (inp : Curves) (k fuel : Nat) (hn : 0 < inp.size) :
    ∃ out, gonzalez fuel k inp false false = .ok out ∧
      (1 ≤ k → out.result.centers.length = k) ∧
      (k = 0 → out.result.centers = [0]) ∧
      out.result.centers[0]? = some 0 := by
  have h0 : ∀ c ∈ [0], c < inp.size := by
    intro c hc; rw [List.mem_singleton.mp hc]; exact hn
  obtain ⟨t, md, M1, hrun, -, -, hlen⟩ :=
    gonzalez_seed_total hn (k - 1) [0] 0 _ h0 (gonzalez_start_size inp)
  refine ⟨_, gonzalez_plain_eq hn fuel k hrun, ?_, ?_, by simp⟩
  · intro hk
    simp only [List.length_append, List.length_singleton, hlen]; omega
  · intro hk
    subst hk
    have : t = [] := List.length_eq_zero.mp hlen
    simp [this]

/-- Witness for C10 on the example table with `k = 3`. -/
theorem gonzalez_center_count_witness :
    0 < exampleCurves.size ∧
    ∃ out, gonzalez 0 3 exampleCurves false false = .ok out ∧
      (1 ≤ 3 → out.result.centers.length = 3) ∧
      (3 = 0 → out.result.centers = [0]) ∧
      out.result.centers[0]? = some 0 :=
  ⟨by decide, gonzalez_center_count exampleCurves 3 0 (by decide)⟩

/-- C8 (the code diverges from the claim). On an empty collection `gonzalez`,
for every number of centers and every setting of the two flags, and therefore
`arya`, returns at line 119 the record `result` as line 117 declared it: no
center, no assignment, and a `value` that was never assigned (the field has no
initialiser, line 34), so the cost it reports is indeterminate and not the
zero cost of the claim. No distance table was allocated and the oracle was not
called. -/
theorem gonzalez_empty_input (inp : Curves) (k fuel : Nat) (refinement assignment : Bool)
    (hn : inp.size = 0) :
    ∃ out, gonzalez fuel k inp refinement assignment = .ok out ∧
      arya fuel k inp = .ok out ∧
      out.result.centers = [] ∧ out.result.assignment = [] ∧ out.result.value = none ∧
      out.result.value ≠ some 0 ∧
      out.distances = none ∧ out.oracleCalls = [] := by
  refine ⟨{ result := { centers := [], value := none, assignment := [] }, distances := none },
    ?_, ?_, rfl, rfl, rfl, fun h => Option.noConfusion h, rfl, rfl⟩
  · simp [gonzalez, hn]
  · simp [arya, gonzalez, hn]

/-- Witness for C8: the empty collection, three centers requested, both flags set. -/
theorem gonzalez_empty_input_witness :
    ∃ out, gonzalez 5 3 { size := 0, dist := fun _ _ => 1 } true true = .ok out ∧
      arya 5 3 { size := 0, dist := fun _ _ => 1 } = .ok out ∧
      out.result.centers = [] ∧ out.result.assignment = [] ∧ out.result.value = none ∧
      out.result.value ≠ some 0 ∧
      out.distances = none ∧ out.oracleCalls = [] :=
  gonzalez_empty_input { size := 0, dist := fun _ _ => 1 } 3 5 true true rfl

/-- C2 (the code diverges from the claim). On the example table
`gonzalez(2, curves)` returns the centers `[0, 2]` with value 5, while the
k-center objective of `[0, 2]` is 2; and `gonzalez(1, curves)` returns the
center `[0]` with value 0, while the k-center objective of `[0]` is 5. The
value is the maximum cost found in the last pass, before the last center was
appended. -/
theorem gonzalez_value_lags_one_center :
    (gonzalez 0 2 exampleCurves false false).toOption.map
        (fun o => (o.result.centers, o.result.value)) = some ([0, 2], some 5) ∧
      IsKCenterObjective exampleCurves.dist exampleCurves.size [0, 2] 2 ∧
      (gonzalez 0 1 exampleCurves false false).toOption.map
        (fun o => (o.result.centers, o.result.value)) = some ([0], some 0) ∧
      IsKCenterObjective exampleCurves.dist exampleCurves.size [0] 5 := by
  refine ⟨by decide, ?_, by decide, ?_⟩
  · unfold IsKCenterObjective; decide
  · unfold IsKCenterObjective; decide

/-- C9 (the code diverges from the claim). On an empty collection
`one_median_exhaustive` returns the one center `0` with value `+infinity`, and
`one_median_approx`, once the generator has supplied a candidate and a witness,
reads `distances[0][0]` of the empty table. Neither has the guard
`if (in.empty()) return result;` of `gonzalez`. -/
theorem one_median_empty_input (d : Nat → Nat → ℚ) (x w : ℚ) (xs ws : List ℚ) :
    (one_median_exhaustive { size := 0, dist := d }).toOption.map
        (fun o => (o.result.centers, o.result.value)) = some ([0], some ⊤) ∧
      one_median_approx (x :: xs) (w :: ws) { size := 0, dist := d } = .error .outOfBounds := by
  refine ⟨rfl, ?_⟩
  simp [one_median_approx, one_median_approx_loop, one_median_approx_row, cheap_dist,
    Distances.fresh]

/-! ## The exhaustive 1-median -/

theorem scanMin_congr {f g : Nat → distance_t} :
    ∀ (is : List Nat) (bc : Nat) (bov : distance_t), (∀ i ∈ is, f i = g i) →
      scanMin f is bc bov = scanMin g is bc bov := by
  intro is
  induction is with
  | nil => intro bc bov _; rfl
  | cons i rest ih =>
    intro bc bov h
    have hi := h i (List.mem_cons_self _ _)
    have hrest : ∀ x ∈ rest, f x = g x := fun x hx => h x (List.mem_cons_of_mem _ hx)
    simp only [scanMin, hi]
    split
    · exact ih _ _ hrest
    · exact ih _ _ hrest

theorem getNearestCenter_loop_total {inp : Curves} {i : Nat} (hi : i < inp.size) :
    ∀ (cs : List Nat) (j : Nat) (acc : distance_t) (nearest : Nat) (M : Distances),
      (∀ c ∈ cs, c < inp.size) → M.size = inp.size →
      ∃ r M1, getNearestCenter_loop i inp cs j acc nearest M = .ok (r, M1) ∧
        M1.size = inp.size ∧ (r = nearest ∨ (j ≤ r ∧ r < j + cs.length)) := by
  intro cs
  induction cs with
  | nil => intro j acc nearest M _ hs; exact ⟨nearest, M, rfl, hs, Or.inl rfl⟩
  | cons c rest ih =>
    intro j acc nearest M hcs hs
    obtain ⟨M0, h0, hs0⟩ := cheap_dist_total hs hi (hcs c (List.mem_cons_self _ _))
    have hrest : ∀ x ∈ rest, x < inp.size := fun x hx => hcs x (List.mem_cons_of_mem _ hx)
    simp only [getNearestCenter_loop, h0, List.length_cons]
    split
    · obtain ⟨r, M1, h1, hs1, hr⟩ := ih (j + 1) _ j M0 hrest hs0
      refine ⟨r, M1, h1, hs1, Or.inr ?_⟩
      rcases hr with rfl | hr <;> omega
    · obtain ⟨r, M1, h1, hs1, hr⟩ := ih (j + 1) acc nearest M0 hrest hs0
      refine ⟨r, M1, h1, hs1, ?_⟩
      rcases hr with rfl | hr
      · exact Or.inl rfl
      · exact Or.inr (by omega)

theorem getNearestCenter_total {inp : Curves} {i : Nat} {cs : List Nat} {M : Distances}
    (hi : i < inp.size) (hcs : ∀ c ∈ cs, c < inp.size) (hne : cs ≠ [])
    (hs : M.size = inp.size) :
    ∃ r M1, getNearestCenter i inp cs M = .ok (r, M1) ∧ M1.size = inp.size ∧ r < cs.length := by
  obtain ⟨r, M1, h1, hs1, hr⟩ := getNearestCenter_loop_total hi cs 0 ⊤ 0 M hcs hs
  refine ⟨r, M1, h1, hs1, ?_⟩
  have hpos : 0 < cs.length := List.length_pos.mpr hne
  rcases hr with rfl | hr <;> omega

theorem emplace_range (k : Nat) :
    (List.range k).foldl (fun acc i => Cluster_Assignment.emplace acc i []) [] =
      (List.range k).map (fun i => (i, ([] : List Nat))) := by
  induction k with
  | zero => rfl
  | succ k ih =>
    rw [List.range_succ, List.foldl_append, ih]
    simp [Cluster_Assignment.emplace, Function.comp_def]

theorem push_back_at_spec :
    ∀ (m : Cluster_Assignment) (key x : Nat), key ∈ m.map Prod.fst →
      (Cluster_Assignment.push_back_at m key x).map Prod.fst = m.map Prod.fst ∧
      ((Cluster_Assignment.push_back_at m key x).map Prod.snd).flatten.Perm
        (x :: (m.map Prod.snd).flatten) := by
  intro m
  induction m with
  | nil => intro key x h; cases h
  | cons entry rest ih =>
    intro key x h
    obtain ⟨k1, v⟩ := entry
    simp only [Cluster_Assignment.push_back_at]
    split
    · refine ⟨rfl, ?_⟩
      simp only [List.map_cons, List.flatten_cons, List.append_assoc]
      exact List.perm_middle
    · rename_i hne
      have hmem : key ∈ rest.map Prod.fst := by
        rcases List.mem_cons.mp h with h | h
        · exact absurd h.symm hne
        · exact h
      obtain ⟨h1, h2⟩ := ih key x hmem
      refine ⟨by simp only [List.map_cons, h1], ?_⟩
      simp only [List.map_cons, List.flatten_cons]
      exact (List.Perm.append_left v h2).trans List.perm_middle

theorem getClusterAssignment_loop_spec {inp : Curves} {cs : List Nat}
    (hcs : ∀ c ∈ cs, c < inp.size) (hne : cs ≠ []) :
    ∀ (is : List Nat) (result : Cluster_Assignment) (M : Distances),
      (∀ i ∈ is, i < inp.size) → M.size = inp.size →
      result.map Prod.fst = List.range cs.length →
      ∃ r M1, getClusterAssignment_loop inp cs is result M = .ok (r, M1) ∧
        M1.size = inp.size ∧ r.map Prod.fst = List.range cs.length ∧
        (r.map Prod.snd).flatten.Perm (is ++ (result.map Prod.snd).flatten) := by
  intro is
  induction is with
  | nil => intro result M _ hs hkeys; exact ⟨result, M, rfl, hs, hkeys, List.Perm.refl _⟩
  | cons i rest ih =>
    intro result M his hs hkeys
    obtain ⟨nearest, M0, h0, hs0, hlt⟩ :=
      getNearestCenter_total (his i (List.mem_cons_self _ _)) hcs hne hs
    have hmem : nearest ∈ result.map Prod.fst := by
      rw [hkeys]; exact List.mem_range.mpr hlt
    obtain ⟨hk1, hp1⟩ := push_back_at_spec result nearest i hmem
    obtain ⟨r, M1, h1, hs1, hkeys1, hperm⟩ :=
      ih (Cluster_Assignment.push_back_at result nearest i) M0
        (fun x hx => his x (List.mem_cons_of_mem _ hx)) hs0 (by rw [hk1, hkeys])
    refine ⟨r, M1, by simp only [getClusterAssignment_loop, h0, h1], hs1, hkeys1, ?_⟩
    refine hperm.trans ?_
    refine (List.Perm.append_left rest hp1).trans ?_
    exact List.perm_middle

theorem getClusterAssignment_total {inp : Curves} {cs : List Nat} {M : Distances}
    (hne : cs ≠ []) (hcs : ∀ c ∈ cs, c < inp.size) (hs : M.size = inp.size) :
    ∃ r M1, getClusterAssignment inp cs M = .ok (r, M1) ∧ M1.size = inp.size := by
  have hlen : cs.length ≠ 0 := fun h => hne (List.length_eq_zero.mp h)
  have hkeys : ((List.range cs.length).foldl
      (fun acc i => Cluster_Assignment.emplace acc i []) []).map Prod.fst
        = List.range cs.length := by
    rw [emplace_range]; simp [Function.comp_def]
  obtain ⟨r, M1, h1, hs1, -, -⟩ :=
    getClusterAssignment_loop_spec hcs hne (List.range inp.size) _ M
      (fun _ hi => List.mem_range.mp hi) hs hkeys
  exact ⟨r, M1, by simp only [getClusterAssignment, hlen, if_false, h1], hs1⟩

/-- C4. For a collection of `n` curves, a non-empty sequence of `k` valid
centers and a distance table of the collection's size, `getClusterAssignment`
returns a mapping whose keys are exactly the positions `0 .. k-1`, each once,
and whose clusters together hold every curve index `0 .. n-1` exactly once: the
concatenation of the clusters is a permutation of `0 .. n-1`. -/
theorem getClusterAssignment_partition (inp : Curves) (centers : Centers) (distances : Distances)
    (hne : centers ≠ []) (hcs : ∀ c ∈ centers, c < inp.size)
    (hs : distances.size = inp.size) :
    ∃ r M1, getClusterAssignment inp centers distances = .ok (r, M1) ∧
      (r.map Prod.fst).Nodup ∧ (∀ p, p ∈ r.map Prod.fst ↔ p < centers.length) ∧
      ((r.map Prod.snd).flatten).Perm (List.range inp.size) := by
  have hlen : centers.length ≠ 0 := fun h => hne (List.length_eq_zero.mp h)
  have hkeys : ((List.range centers.length).foldl
      (fun acc i => Cluster_Assignment.emplace acc i []) []).map Prod.fst
        = List.range centers.length := by
    rw [emplace_range]; simp [Function.comp_def]
  have hempty : (((List.range centers.length).foldl
      (fun acc i => Cluster_Assignment.emplace acc i []) []).map Prod.snd).flatten = [] := by
    rw [emplace_range]; simp [Function.comp_def]
  obtain ⟨r, M1, h1, -, hk1, hperm⟩ :=
    getClusterAssignment_loop_spec hcs hne (List.range inp.size) _ distances
      (fun _ hi => List.mem_range.mp hi) hs hkeys
  refine ⟨r, M1, by simp only [getClusterAssignment, hlen, if_false, h1], ?_, ?_, ?_⟩
  · rw [hk1]; exact List.nodup_range _
  · intro p; rw [hk1]; exact List.mem_range
  · rw [hempty, List.append_nil] at hperm; exact hperm

/-- Witness for C4: the example table, centers `[0, 2]`, a fresh table. -/
theorem getClusterAssignment_partition_witness :
    ∃ r M1, getClusterAssignment exampleCurves [0, 2] (Distances.fresh 4) = .ok (r, M1) ∧
      (r.map Prod.fst).Nodup ∧ (∀ p, p ∈ r.map Prod.fst ↔ p < [0, 2].length) ∧
      ((r.map Prod.snd).flatten).Perm (List.range exampleCurves.size) :=
  getClusterAssignment_partition exampleCurves [0, 2] (Distances.fresh 4) (by decide) (by decide)
    rfl

/-! ## The local search -/

theorem costOf_extend {inp : Curves} {M M1 : Distances} {cs : List Nat} {cost : distance_t}
    (h : CostOf inp M cs cost) (hext : M.Extends M1) : CostOf inp M1 cs cost := by
  obtain ⟨hfill, hcost⟩ := h
  refine ⟨fun i hi c hc => by rw [hext i c (hfill i hi c hc)]; exact hfill i hi c hc, ?_⟩
  rw [hcost]
  unfold totalCost
  apply foldl_double_add_congr
  intro i hi
  exact nearestDistance_congr (fun c hc => (hext i c (hfill i (List.mem_range.mp hi) c hc)).symm)

theorem aryaState_extend {inp : Curves} {P : Nat → Nat → ℚ → Prop} {K : Nat}
    {M M1 : Distances} {cs : List Nat} {cost : distance_t}
    (h : AryaState inp P K M cs cost) (hM1 : CacheInv inp P M1) (hext : M.Extends M1) :
    AryaState inp P K M1 cs cost :=
  ⟨hM1, h.len, h.bounded, costOf_extend h.cost_eq hext⟩

theorem center_cost_sum_costOf {inp : Curves} {P : Nat → Nat → ℚ → Prop} {cs : List Nat}
    {M M1 : Distances} {v : distance_t}
    (hcs : ∀ c ∈ cs, c < inp.size) (hM : CacheInv inp P M)
    (h : center_cost_sum inp cs M = .ok (v, M1)) :
    CacheInv inp P M1 ∧ M.Extends M1 ∧ CostOf inp M1 cs v := by
  obtain ⟨h1, h2, h3, h4⟩ := center_cost_sum_inv hcs hM h
  exact ⟨h1, h2, h3, h4⟩

theorem totalCost_nonneg {e : Nat → Nat → ℚ} {n : Nat} {cs : List Nat}
    (h : ∀ i < n, ∀ c ∈ cs, 0 ≤ e i c) : (0 : distance_t) ≤ totalCost e n cs := by
  unfold totalCost
  exact foldl_double_add_nonneg _ 0 le_rfl
    (fun i hi => nearestDistance_nonneg (h i (List.mem_range.mp hi)))

theorem costOf_nonneg {inp : Curves} {M : Distances} {cs : List Nat} {cost : distance_t}
    (h : CostOf inp M cs cost) : 0 ≤ cost := by
  rw [h.2]; exact totalCost_nonneg h.1

/-- An accepted swap lowers the cost: with a non-negative `approxcost` the test
of line 188 implies `curr_cost < cost`. -/
theorem gonzalez_improves_lt {cost approxcost curr_cost : distance_t} {gamma : Nat}
    (ha : 0 ≤ approxcost) (h : gonzalez_improves cost gamma approxcost curr_cost = true) :
    curr_cost < cost := by
  unfold gonzalez_improves at h
  split at h
  · rename_i c a cc
    have hlt : cc < c - (gamma : ℚ) * a := by simpa using h
    have ha0 : (0 : ℚ) ≤ a := WithTop.coe_nonneg.mp ha
    have hg : (0 : ℚ) ≤ (gamma : ℚ) * a := mul_nonneg (Nat.cast_nonneg _) ha0
    have : cc < c := by linarith
    exact WithTop.coe_lt_coe.mpr this
  · exact WithTop.coe_lt_top _
  · exact absurd h (by simp)

theorem gonzalez_try_spec {inp : Curves} {P : Nat → Nat → ℚ → Prop} {K g i : Nat}
    {approxcost : distance_t} (hi : i < K) (ha : 0 ≤ approxcost) :
    ∀ (js : List Nat) (curr centers : List Nat) (cost : distance_t) (found : Bool)
      (M : Distances),
      (∀ j ∈ js, j < inp.size) → AryaState inp P K M centers cost →
      curr.length = K → (∀ c ∈ curr, c < inp.size) →
      ∃ cs1 cost1 found1 M1,
        gonzalez_try inp g approxcost i js curr centers cost found M
          = .ok (cs1, cost1, found1, M1) ∧
        AryaState inp P K M1 cs1 cost1 ∧ M.Extends M1 ∧ cost1 ≤ cost ∧
        ((cs1 = centers ∧ cost1 = cost ∧ found1 = found) ∨ (found1 = true ∧ cost1 < cost)) := by
  intro js
  induction js with
  | nil =>
    intro curr centers cost found M _ hst _ _
    exact ⟨centers, cost, found, M, rfl, hst, extends_refl _, le_rfl,
      Or.inl ⟨rfl, rfl, rfl⟩⟩
  | cons j rest ih =>
    intro curr centers cost found M hjs hst hlen hcurr
    have hj : j < inp.size := hjs j (List.mem_cons_self _ _)
    have hrest : ∀ x ∈ rest, x < inp.size := fun x hx => hjs x (List.mem_cons_of_mem _ hx)
    by_cases hmem : j ∈ curr
    · obtain ⟨cs1, cost1, found1, M1, h1, r⟩ := ih curr centers cost found M hrest hst hlen hcurr
      exact ⟨cs1, cost1, found1, M1, by simp only [gonzalez_try, hmem, if_true, h1], r⟩
    · have hilt : i < curr.length := by rw [hlen]; exact hi
      have hlen1 : (curr.set i j).length = K := by rw [List.length_set]; exact hlen
      have hcurr1 : ∀ c ∈ curr.set i j, c < inp.size := by
        intro c hc
        rcases List.mem_or_eq_of_mem_set hc with hc | rfl
        · exact hcurr c hc
        · exact hj
      obtain ⟨cc, M0, h0, -⟩ := center_cost_sum_total hcurr1 hst.inv.size_eq
      obtain ⟨hM0, hext0, hcost0⟩ := center_cost_sum_costOf hcurr1 hst.inv h0
      by_cases himp : gonzalez_improves cost g approxcost cc = true
      · have hlt : cc < cost := gonzalez_improves_lt ha himp
        have hst0 : AryaState inp P K M0 (curr.set i j) cc := ⟨hM0, hlen1, hcurr1, hcost0⟩
        obtain ⟨cs1, cost1, found1, M1, h1, hst1, hext1, hle1, hcase⟩ :=
          ih (curr.set i j) (curr.set i j) cc true M0 hrest hst0 hlen1 hcurr1
        refine ⟨cs1, cost1, found1, M1, ?_, hst1, extends_trans hext0 hext1,
          le_of_lt (lt_of_le_of_lt hle1 hlt), Or.inr ?_⟩
        · simp only [gonzalez_try, hmem, if_false, hilt, if_true, h0, himp, h1]
        · rcases hcase with ⟨-, -, hf⟩ | ⟨hf, hlt1⟩
          · exact ⟨hf, lt_of_le_of_lt hle1 hlt⟩
          · exact ⟨hf, lt_trans hlt1 hlt⟩
      · have hst0 : AryaState inp P K M0 centers cost := aryaState_extend hst hM0 hext0
        obtain ⟨cs1, cost1, found1, M1, h1, hst1, hext1, hle1, hcase⟩ :=
          ih (curr.set i j) centers cost found M0 hrest hst0 hlen1 hcurr1
        refine ⟨cs1, cost1, found1, M1, ?_, hst1, extends_trans hext0 hext1, hle1, hcase⟩
        have himp1 : gonzalez_improves cost g approxcost cc = false := by simpa using himp
        simp [gonzalez_try, hmem, hilt, h0, himp1, h1]

theorem gonzalez_pass_spec {inp : Curves} {P : Nat → Nat → ℚ → Prop} {K g : Nat}
    {approxcost : distance_t} (ha : 0 ≤ approxcost) :
    ∀ (is : List Nat) (centers : List Nat) (cost : distance_t) (found : Bool) (M : Distances),
      (∀ i ∈ is, i < K) → AryaState inp P K M centers cost →
      ∃ cs1 cost1 found1 M1,
        gonzalez_pass inp g approxcost is centers cost found M
          = .ok (cs1, cost1, found1, M1) ∧
        AryaState inp P K M1 cs1 cost1 ∧ M.Extends M1 ∧ cost1 ≤ cost ∧
        ((cs1 = centers ∧ cost1 = cost ∧ found1 = found) ∨ (found1 = true ∧ cost1 < cost)) := by
  intro is
  induction is with
  | nil =>
    intro centers cost found M _ hst
    exact ⟨centers, cost, found, M, rfl, hst, extends_refl _, le_rfl,
      Or.inl ⟨rfl, rfl, rfl⟩⟩
  | cons i rest ih =>
    intro centers cost found M his hst
    obtain ⟨cs0, cost0, found0, M0, h0, hst0, hext0, hle0, hcase0⟩ :=
      gonzalez_try_spec (g := g) (his i (List.mem_cons_self _ _)) ha
        (List.range inp.size) centers centers cost found M
        (fun _ hj => List.mem_range.mp hj) hst hst.len hst.bounded
    obtain ⟨cs1, cost1, found1, M1, h1, hst1, hext1, hle1, hcase1⟩ :=
      ih cs0 cost0 found0 M0 (fun x hx => his x (List.mem_cons_of_mem _ hx)) hst0
    refine ⟨cs1, cost1, found1, M1, by simp only [gonzalez_pass, h0, h1], hst1,
      extends_trans hext0 hext1, le_trans hle1 hle0, ?_⟩
    rcases hcase1 with ⟨hc, hco, hf⟩ | ⟨hf, hlt⟩
    · rcases hcase0 with ⟨hc0, hco0, hf0⟩ | ⟨hf0, hlt0⟩
      · exact Or.inl ⟨hc.trans hc0, hco.trans hco0, hf.trans hf0⟩
      · exact Or.inr ⟨hf.trans hf0, by rw [hco]; exact hlt0⟩
    · exact Or.inr ⟨hf, lt_of_lt_of_le hlt hle0⟩

/-- The loop `while (true)` ends: when every reachable cost lies in a finite
set `V`, a fuel above the number of elements of `V` below the current cost is
enough, and the final cost is at most the initial one. -/
theorem gonzalez_while_spec {inp : Curves} {P : Nat → Nat → ℚ → Prop} {K g : Nat}
    {approxcost : distance_t} (V : Finset distance_t)
    (hV : ∀ M cs cost, AryaState inp P K M cs cost → cost ∈ V) (ha : 0 ≤ approxcost) :
    ∀ (fuel : Nat) (centers : List Nat) (cost : distance_t) (M : Distances),
      AryaState inp P K M centers cost → (V.filter (fun v => v < cost)).card < fuel →
      ∃ cs1 cost1 M1,
        gonzalez_while K inp g approxcost fuel centers cost M = .ok (cs1, cost1, M1) ∧
        AryaState inp P K M1 cs1 cost1 ∧ M.Extends M1 ∧ cost1 ≤ cost := by
  intro fuel
  induction fuel with
  | zero => intro centers cost M _ h; exact absurd h (Nat.not_lt_zero _)
  | succ fuel ih =>
    intro centers cost M hst hcard
    obtain ⟨cs0, cost0, found0, M0, h0, hst0, hext0, hle0, hcase0⟩ :=
      gonzalez_pass_spec (g := g) ha (List.range K) centers cost false M
        (fun _ hi => List.mem_range.mp hi) hst
    by_cases hf : found0 = true
    · have hlt : cost0 < cost := by
        rcases hcase0 with ⟨-, -, hf0⟩ | ⟨-, hlt⟩
        · rw [hf0] at hf; exact absurd hf (by simp)
        · exact hlt
      have hsub : (V.filter (fun v => v < cost0)).card < (V.filter (fun v => v < cost)).card := by
        apply Finset.card_lt_card
        rw [Finset.ssubset_iff_of_subset]
        · exact ⟨cost0, Finset.mem_filter.mpr ⟨hV M0 cs0 cost0 hst0, hlt⟩,
            fun h => lt_irrefl _ (Finset.mem_filter.mp h).2⟩
        · intro v hv
          obtain ⟨h1, h2⟩ := Finset.mem_filter.mp hv
          exact Finset.mem_filter.mpr ⟨h1, lt_trans h2 hlt⟩
      obtain ⟨cs1, cost1, M1, h1, hst1, hext1, hle1⟩ := ih cs0 cost0 M0 hst0 (by omega)
      exact ⟨cs1, cost1, M1, by simp only [gonzalez_while, h0, hf, if_true, h1], hst1,
        extends_trans hext0 hext1, le_trans hle1 hle0⟩
    · have hf1 : found0 = false := by simpa using hf
      refine ⟨cs0, cost0, M0, ?_, hst0, hext0, hle0⟩
      simp [gonzalez_while, h0, hf1]

/-! ## Runs of `gonzalez` with refinement -/

theorem cacheInv_mono {inp : Curves} {P Q : Nat → Nat → ℚ → Prop} {M : Distances}
    (h : CacheInv inp P M) (hPQ : ∀ a b v, P a b v → Q a b v) : CacheInv inp Q M :=
  ⟨h.size_eq, h.symm, fun i j hi hj hf => hPQ _ _ _ (h.filled i j hi hj hf),
    fun i j hi hj hu =>
      ⟨(h.unfilled i j hi hj hu).1, hPQ _ _ _ (h.unfilled i j hi hj hu).2.1,
        hPQ _ _ _ (h.unfilled i j hi hj hu).2.2⟩⟩

theorem dist_mem_cellValues {inp : Curves} {i j : Nat} (hi : i < inp.size) (hj : j < inp.size) :
    inp.dist i j ∈ cellValues inp := by
  unfold cellValues
  apply Finset.mem_insert_of_mem
  apply Finset.mem_image.mpr
  exact ⟨(i, j), by simp [hi, hj], rfl⟩

theorem gonzalez_start_admissible {inp : Curves}
    (hnn : ∀ i j, i < inp.size → j < inp.size → 0 ≤ inp.dist i j) :
    CacheInv inp (Admissible inp)
      (Distances.zeroDiagonal inp.size (Distances.fresh inp.size)) := by
  obtain ⟨h1, -, h3⟩ := zeroDiagonal_spec inp.size (Distances.fresh inp.size)
  refine ⟨h1, ?_, ?_, ?_⟩
  · intro i j
    rw [h3, h3]
    by_cases hij : i = j
    · subst hij; rfl
    · have hji : ¬ j = i := fun h => hij h.symm
      simp [hij, hji, Distances.fresh]
  · intro i j hi hj
    rw [h3]
    by_cases hij : i = j
    · subst hij
      simp only [hi, and_self, if_true]
      intro _
      exact ⟨Finset.mem_insert_self _ _, fun _ => by simp [Curves.lookup]⟩
    · simp only [hij, false_and, if_false, Distances.fresh]
      intro h
      norm_num at h
  · intro i j hi hj
    rw [h3]
    by_cases hij : i = j
    · subst hij; simp [hi]
    · have hji : ¬ j = i := fun h => hij h.symm
      intro _
      refine ⟨hnn i j hi hj, ⟨dist_mem_cellValues hi hj, fun _ => ?_⟩,
        ⟨dist_mem_cellValues hi hj, fun hsym => ?_⟩⟩
      · simp [Curves.lookup, hij]
      · simp [Curves.lookup, hji, hsym i hi j hj]

theorem gonzalez_seed_keeps {inp : Curves} {P : Nat → Nat → ℚ → Prop} (hn : 0 < inp.size) :
    ∀ (passes : Nat) (cs : List Nat) (md : distance_t) (M : Distances) (cs1 : List Nat)
      (md1 : distance_t) (M1 : Distances),
      (∀ c ∈ cs, c < inp.size) → CacheInv inp P M →
      gonzalez_seed inp passes cs md M = .ok (cs1, md1, M1) →
      CacheInv inp P M1 ∧ M.Extends M1 := by
  intro passes
  induction passes with
  | zero =>
    intro cs md M cs1 md1 M1 _ hM h
    simp only [gonzalez_seed, Except.ok.injEq, Prod.mk.injEq] at h
    obtain ⟨rfl, rfl, rfl⟩ := h
    exact ⟨hM, extends_refl _⟩
  | succ p ih =>
    intro cs md M cs1 md1 M1 hcs hM h
    have hrange : ∀ j ∈ List.range inp.size, j < inp.size := fun _ hj => List.mem_range.mp hj
    obtain ⟨md0, mc0, M0, h0, -, hmc0⟩ :=
      gonzalez_scan_total hcs (List.range inp.size) 0 0 M hrange hM.size_eq hn
    obtain ⟨hM0, hext0, -, -⟩ := gonzalez_scan_inv hcs _ 0 0 M md0 mc0 M0 hrange hM h0
    have hcs0 : ∀ c ∈ cs ++ [mc0], c < inp.size := by
      intro c hc
      rcases List.mem_append.mp hc with hc | hc
      · exact hcs c hc
      · rw [List.mem_singleton.mp hc]; exact hmc0
    simp only [gonzalez_seed, h0] at h
    obtain ⟨hM1, hext1⟩ := ih (cs ++ [mc0]) md0 M0 cs1 md1 M1 hcs0 hM0 h
    exact ⟨hM1, extends_trans hext0 hext1⟩

theorem sum_mem_costValues (inp : Curves) {f : Nat → distance_t} :
    ∀ (l : List Nat) (m : Nat) (acc : distance_t), acc ∈ costValues inp m →
      (∀ i ∈ l, f i ∈ (cellValues inp).image (fun q => ((q : ℚ) : distance_t))) →
      l.foldl (fun cost i => double_add cost (f i)) acc ∈ costValues inp (m + l.length) := by
  intro l
  induction l with
  | nil => intro m acc hacc _; exact hacc
  | cons i rest ih =>
    intro m acc hacc h
    have hstep : double_add acc (f i) ∈ costValues inp (m + 1) := by
      simp only [costValues]
      exact Finset.mem_image₂_of_mem hacc (h i (List.mem_cons_self _ _))
    have := ih (m + 1) _ hstep (fun x hx => h x (List.mem_cons_of_mem _ hx))
    simp only [List.foldl_cons, List.length_cons]
    rw [show m + (rest.length + 1) = m + 1 + rest.length by omega]
    exact this

theorem cost_mem_costValues {inp : Curves} {K : Nat} (hK : 0 < K) {M : Distances}
    {cs : List Nat} {cost : distance_t} (h : AryaState inp (Admissible inp) K M cs cost) :
    cost ∈ costValues inp inp.size := by
  obtain ⟨hfill, hcost⟩ := h.cost_eq
  rw [hcost]
  unfold totalCost
  have hsum := sum_mem_costValues inp (f := fun i => nearestDistance M.cell i cs)
    (List.range inp.size) 0 0 (by simp [costValues])
  rw [List.length_range, zero_add] at hsum
  apply hsum
  intro i hi
  have hi1 : i < inp.size := List.mem_range.mp hi
  have hne : cs.map (M.cell i) ≠ [] := by
    intro hnil
    have : cs.length = 0 := by
      have := congrArg List.length hnil
      simpa using this
    rw [h.len] at this
    omega
  obtain ⟨m, hm⟩ := WithTop.ne_top_iff_exists.mp (List.minimum_ne_top_of_ne_nil hne)
  have hmem : m ∈ cs.map (M.cell i) := List.minimum_mem hm.symm
  obtain ⟨c, hc, rfl⟩ := List.mem_map.mp hmem
  apply Finset.mem_image.mpr
  refine ⟨M.cell i c, ?_, ?_⟩
  · exact (h.inv.filled i c hi1 (h.bounded c hc) (hfill i hi1 c hc)).1
  · unfold nearestDistance; exact hm

/-- The run of the seeding followed by the first cost evaluation and the
loop `while (true)` of the refinement, for a non-negative oracle and `k ≥ 1`:
every step succeeds, the loop returns for every `gamma` once the fuel exceeds
the number of possible cost values, and its final cost is at most the cost it
started from. -/
theorem gonzalez_refine_run {inp : Curves} (hn : 0 < inp.size) {k : Nat} (hk : 1 ≤ k)
    (hnn : ∀ i j, i < inp.size → j < inp.size → 0 ≤ inp.dist i j) :
    ∃ t md M1 a M2,
      gonzalez_seed inp (k - 1) [0] 0
        (Distances.zeroDiagonal inp.size (Distances.fresh inp.size)) = .ok ([0] ++ t, md, M1) ∧
      center_cost_sum inp ([0] ++ t) M1 = .ok (a, M2) ∧
      AryaState inp (Admissible inp) k M2 ([0] ++ t) a ∧
      ∀ fuel gamma, (costValues inp inp.size).card < fuel →
        ∃ cs1 v M3, gonzalez_while k inp gamma a fuel ([0] ++ t) a M2 = .ok (cs1, v, M3) ∧
          AryaState inp (Admissible inp) k M3 cs1 v ∧ v ≤ a := by
  have h0 : ∀ c ∈ [0], c < inp.size := by
    intro c hc; rw [List.mem_singleton.mp hc]; exact hn
  obtain ⟨t, md, M1, hrun, hs1, ht, hlen⟩ :=
    gonzalez_seed_total hn (k - 1) [0] 0 _ h0 (gonzalez_start_size inp)
  obtain ⟨hM1, -⟩ :=
    gonzalez_seed_keeps hn (k - 1) [0] 0 _ _ md M1 h0 (gonzalez_start_admissible hnn) hrun
  have hcs : ∀ c ∈ [0] ++ t, c < inp.size := by
    intro c hc
    rcases List.mem_append.mp hc with hc | hc
    · exact h0 c hc
    · exact ht c hc
  obtain ⟨a, M2, hsum, -⟩ := center_cost_sum_total hcs hs1
  obtain ⟨hM2, -, hcost⟩ := center_cost_sum_costOf hcs hM1 hsum
  have hst : AryaState inp (Admissible inp) k M2 ([0] ++ t) a :=
    ⟨hM2, by simp only [List.length_append, List.length_singleton, hlen]; omega, hcs, hcost⟩
  refine ⟨t, md, M1, a, M2, hrun, hsum, hst, ?_⟩
  intro fuel gamma hfuel
  obtain ⟨cs1, v, M3, hw, hst3, -, hle⟩ :=
    gonzalez_while_spec (g := gamma) (costValues inp inp.size)
      (fun M cs cost h => cost_mem_costValues hk h) (costOf_nonneg hcost) fuel ([0] ++ t) a M2 hst
      (lt_of_le_of_lt (Finset.card_filter_le _ _) hfuel)
  exact ⟨cs1, v, M3, hw, hst3, hle⟩

theorem gonzalez_refine_eq {inp : Curves} (fuel : Nat) {k : Nat} {cs : List Nat} {M1 M2 : Distances}
    {a : distance_t} (hsum : center_cost_sum inp cs M1 = .ok (a, M2))
    (hdiv : (3 * k * inp.size) % 2 ^ 64 ≠ 0) :
    gonzalez_refine fuel k inp cs M1 =
      gonzalez_while k inp (1 / ((3 * k * inp.size) % 2 ^ 64)) a fuel cs a M2 := by
  simp only [gonzalez_refine, hsum, if_neg hdiv]

theorem gonzalez_refine_undefined {inp : Curves} {fuel k : Nat} {cs : List Nat}
    {M1 M2 : Distances} {a : distance_t} (hsum : center_cost_sum inp cs M1 = .ok (a, M2))
    (hdiv : (3 * k * inp.size) % 2 ^ 64 = 0) :
    gonzalez_refine fuel k inp cs M1 = .error .divisionByZero := by
  simp only [gonzalez_refine, hsum, if_pos hdiv]

theorem gonzalez_arya_fault {inp : Curves} (hn : 0 < inp.size) {fuel k : Nat} (assignment : Bool)
    {cs : List Nat} {md : distance_t} {M1 : Distances} {e : Fault}
    (hseed : gonzalez_seed inp (k - 1) [0] 0
      (Distances.zeroDiagonal inp.size (Distances.fresh inp.size)) = .ok (cs, md, M1))
    (href : gonzalez_refine fuel k inp cs M1 = .error e) :
    gonzalez fuel k inp true assignment = .error e := by
  have hne : inp.size ≠ 0 := by omega
  simp only [gonzalez, if_neg hne, hseed, if_true, href]

theorem gonzalez_arya_eq {inp : Curves} (hn : 0 < inp.size) {fuel k : Nat}
    {cs cs2 : List Nat} {md v : distance_t} {M1 M2 : Distances}
    (hseed : gonzalez_seed inp (k - 1) [0] 0
      (Distances.zeroDiagonal inp.size (Distances.fresh inp.size)) = .ok (cs, md, M1))
    (href : gonzalez_refine fuel k inp cs M1 = .ok (cs2, v, M2)) :
    gonzalez fuel k inp true false =
      .ok (Outcome.mk (Clustering_Result.mk cs2 (some v) []) (some M2)) := by
  have hne : inp.size ≠ 0 := by omega
  simp only [gonzalez, if_neg hne, hseed, if_true, href]
  rfl

theorem gonzalez_arya_assignment_eq {inp : Curves} (hn : 0 < inp.size) {fuel k : Nat}
    {cs cs2 : List Nat} {md v : distance_t} {M1 M2 M3 : Distances} {r : Cluster_Assignment}
    (hseed : gonzalez_seed inp (k - 1) [0] 0
      (Distances.zeroDiagonal inp.size (Distances.fresh inp.size)) = .ok (cs, md, M1))
    (href : gonzalez_refine fuel k inp cs M1 = .ok (cs2, v, M2))
    (hasg : getClusterAssignment inp cs2 M2 = .ok (r, M3)) :
    gonzalez fuel k inp true true =
      .ok (Outcome.mk (Clustering_Result.mk cs2 (some v) r) (some M3)) := by
  have hne : inp.size ≠ 0 := by omega
  simp only [gonzalez, if_neg hne, hseed, if_true, href, hasg]

/-- C6. For a non-empty collection with non-negative distances and `k ≥ 1`
(and a `size_t` product `3 * k * n` that is not 0, so that `gamma` is defined),
`arya(k, curves)` returns, once the fuel suffices, a value that is at most the
total cost `center_cost_sum` computes for the center set the seeding produced.
For a symmetric oracle both are the sums, over all curves, of the looked-up
distance to the nearest center. -/
theorem arya_cost_not_above_seeding (inp : Curves) (k : Nat) (hn : 0 < inp.size) (hk : 1 ≤ k)
    (hnn : ∀ i < inp.size, ∀ j < inp.size, 0 ≤ inp.dist i j)
    (hdiv : (3 * k * inp.size) % 2 ^ 64 ≠ 0) :
    ∃ F, ∀ fuel, F ≤ fuel →
      ∃ seeded M a Ma out v,
        gonzalez fuel k inp false false = .ok seeded ∧ seeded.distances = some M ∧
        center_cost_sum inp seeded.result.centers M = .ok (a, Ma) ∧
        arya fuel k inp = .ok out ∧ out.result.value = some v ∧ v ≤ a ∧
        ((∀ i < inp.size, ∀ j < inp.size, inp.dist i j = inp.dist j i) →
          a = totalCost inp.lookup inp.size seeded.result.centers ∧
          v = totalCost inp.lookup inp.size out.result.centers) := by
  have hnn1 : ∀ i j, i < inp.size → j < inp.size → 0 ≤ inp.dist i j :=
    fun i j hi hj => hnn i hi j hj
  obtain ⟨t, md, M1, a, M2, hseed, hsum, hst, hloop⟩ := gonzalez_refine_run hn hk hnn1
  refine ⟨(costValues inp inp.size).card + 1, ?_⟩
  intro fuel hfuel
  obtain ⟨cs1, v, M3, hw, hst3, hle⟩ :=
    hloop fuel (1 / ((3 * k * inp.size) % 2 ^ 64)) (by omega)
  refine ⟨_, M1, a, M2, Outcome.mk (Clustering_Result.mk cs1 (some v) []) (some M3), v,
    gonzalez_plain_eq hn fuel k hseed, rfl, hsum, ?_, rfl, hle, ?_⟩
  · exact gonzalez_arya_eq hn hseed ((gonzalez_refine_eq fuel hsum hdiv).trans hw)
  · intro hsym
    have hcons : ∀ {M : Distances}, CacheInv inp (Admissible inp) M →
        CacheInv inp (fun a b v => v = inp.lookup a b) M :=
      fun h => cacheInv_mono h (fun a b v hv => hv.2 hsym)
    constructor
    · rw [hst.cost_eq.2]
      exact totalCost_of_consistent (hcons hst.inv) hst.bounded hst.cost_eq.1
    · rw [hst3.cost_eq.2]
      exact totalCost_of_consistent (hcons hst3.inv) hst3.bounded hst3.cost_eq.1

/-- Witness for C6 on the example table with `k = 2`. -/
theorem arya_cost_not_above_seeding_witness :
    ∃ F, ∀ fuel, F ≤ fuel →
      ∃ seeded M a Ma out v,
        gonzalez fuel 2 exampleCurves false false = .ok seeded ∧ seeded.distances = some M ∧
        center_cost_sum exampleCurves seeded.result.centers M = .ok (a, Ma) ∧
        arya fuel 2 exampleCurves = .ok out ∧ out.result.value = some v ∧ v ≤ a ∧
        ((∀ i < exampleCurves.size, ∀ j < exampleCurves.size,
            exampleCurves.dist i j = exampleCurves.dist j i) →
          a = totalCost exampleCurves.lookup exampleCurves.size seeded.result.centers ∧
          v = totalCost exampleCurves.lookup exampleCurves.size out.result.centers) :=
  arya_cost_not_above_seeding exampleCurves 2 (by decide) (by decide) (by decide) (by decide)

/-- C7. For a non-empty collection with non-negative distances and `k ≥ 1` the
local search of `gonzalez(k, curves, true)` terminates: there is a number of
passes `F` such that with any fuel of at least `F` the run never exhausts its
fuel, and it returns a result whenever `gamma` is defined (the `size_t`
product `3 * k * n` is not 0). The loop returns only from a pass without an
accepted swap. -/
theorem gonzalez_local_search_terminates (inp : Curves) (k : Nat) (hn : 0 < inp.size)
    (hk : 1 ≤ k) (hnn : ∀ i < inp.size, ∀ j < inp.size, 0 ≤ inp.dist i j) :
    ∃ F, ∀ fuel, F ≤ fuel → ∀ assignment : Bool,
      gonzalez fuel k inp true assignment ≠ .error .outOfFuel ∧
      ((3 * k * inp.size) % 2 ^ 64 ≠ 0 →
        ∃ out, gonzalez fuel k inp true assignment = .ok out) := by
  have hnn1 : ∀ i j, i < inp.size → j < inp.size → 0 ≤ inp.dist i j :=
    fun i j hi hj => hnn i hi j hj
  obtain ⟨t, md, M1, a, M2, hseed, hsum, hst, hloop⟩ := gonzalez_refine_run hn hk hnn1
  refine ⟨(costValues inp inp.size).card + 1, ?_⟩
  intro fuel hfuel assignment
  have hne : inp.size ≠ 0 := by omega
  by_cases hdiv : (3 * k * inp.size) % 2 ^ 64 = 0
  · refine ⟨?_, fun h => absurd hdiv h⟩
    rw [gonzalez_arya_fault hn assignment hseed (gonzalez_refine_undefined hsum hdiv)]
    simp
  · obtain ⟨cs1, v, M3, hw, hst3, -⟩ :=
      hloop fuel (1 / ((3 * k * inp.size) % 2 ^ 64)) (by omega)
    have href := (gonzalez_refine_eq fuel hsum hdiv).trans hw
    have hcs1 : cs1 ≠ [] := by
      intro h
      have := hst3.len
      rw [h] at this
      simp at this
      omega
    obtain ⟨r, M4, hasg, -⟩ := getClusterAssignment_total hcs1 hst3.bounded hst3.inv.size_eq
    have hout : ∃ out, gonzalez fuel k inp true assignment = .ok out := by
      cases assignment
      · exact ⟨_, gonzalez_arya_eq hn hseed href⟩
      · exact ⟨_, gonzalez_arya_assignment_eq hn hseed href hasg⟩
    refine ⟨?_, fun _ => hout⟩
    obtain ⟨out, h⟩ := hout
    rw [h]
    simp

/-- Witness for C7 on the example table with `k = 2`. -/
theorem gonzalez_local_search_terminates_witness :
    ∃ F, ∀ fuel, F ≤ fuel → ∀ assignment : Bool,
      gonzalez fuel 2 exampleCurves true assignment ≠ .error .outOfFuel ∧
      ((3 * 2 * exampleCurves.size) % 2 ^ 64 ≠ 0 →
        ∃ out, gonzalez fuel 2 exampleCurves true assignment = .ok out) :=
  gonzalez_local_search_terminates exampleCurves 2 (by decide) (by decide) (by decide)

/-! ## The approximation guarantee of the seeding -/

theorem nearestDistance_le_of_mem {e : Nat → Nat → ℚ} {i c : Nat} {cs : List Nat}
    (hc : c ∈ cs) : nearestDistance e i cs ≤ ((e i c : ℚ) : distance_t) :=
  List.minimum_le_of_mem' (List.mem_map_of_mem _ hc)

theorem nearestDistance_anti {e : Nat → Nat → ℚ} {i : Nat} {cs1 cs2 : List Nat}
    (h : ∀ c ∈ cs1, c ∈ cs2) : nearestDistance e i cs2 ≤ nearestDistance e i cs1 := by
  apply List.le_minimum_of_forall_le
  intro a ha
  obtain ⟨c, hc, rfl⟩ := List.mem_map.mp ha
  exact nearestDistance_le_of_mem (h c hc)

theorem nearestDistance_attained {e : Nat → Nat → ℚ} {i : Nat} {cs : List Nat} (hne : cs ≠ []) :
    ∃ c ∈ cs, nearestDistance e i cs = ((e i c : ℚ) : distance_t) := by
  have hne1 : cs.map (e i) ≠ [] := fun h => hne (List.map_eq_nil_iff.mp h)
  obtain ⟨m, hm⟩ := WithTop.ne_top_iff_exists.mp (List.minimum_ne_top_of_ne_nil hne1)
  obtain ⟨c, hc, rfl⟩ := List.mem_map.mp (List.minimum_mem hm.symm)
  exact ⟨c, hc, hm.symm⟩

theorem exists_kCenterObjective {e : Nat → Nat → ℚ} {n : Nat} (hn : 0 < n) {cs : List Nat}
    (hne : cs ≠ []) (he : ∀ c ∈ cs, 0 ≤ e 0 c) :
    ∃ r : ℚ, IsKCenterObjective e n cs (r : distance_t) := by
  have hspec := scanMax_spec (f := fun j => nearestDistance e j cs) (nearestDistance_nonneg he) hn
  simp only at hspec
  generalize scanMax (fun j => nearestDistance e j cs) (List.range n) 0 0 = res at hspec
  obtain ⟨hlt, -, hmax, -⟩ := hspec
  obtain ⟨c, -, hc⟩ := nearestDistance_attained (e := e) (i := res.2) hne
  exact ⟨e res.2 c, ⟨res.2, hlt, hc⟩, fun i hi => by rw [← hc]; exact hmax i hi⟩

theorem seedPure_positions {e : Nat → Nat → ℚ} {n : Nat} (hn : 0 < n)
    (he : ∀ i j, i < n → j < n → 0 ≤ e i j) (passes : Nat) (md : distance_t) :
    ((seedPure e n passes [0] md).1).length = passes + 1 ∧
      (∀ c ∈ (seedPure e n passes [0] md).1, c < n) ∧
      ∀ m, 1 ≤ m → m < passes + 1 → ∃ c, ((seedPure e n passes [0] md).1)[m]? = some c ∧
        IsFarthestFirst e n (((seedPure e n passes [0] md).1).take m) c := by
  have h0 : ∀ c ∈ [0], c < n := by
    intro c hc; rw [List.mem_singleton.mp hc]; exact hn
  obtain ⟨t, ht, hlen, hall, -, -⟩ := seedPure_spec hn he passes [0] md h0
  rw [ht]
  refine ⟨by simp [hlen], ?_, ?_⟩
  · intro c hc
    rcases List.mem_append.mp hc with hc | hc
    · exact h0 c hc
    · obtain ⟨q, hq⟩ := List.mem_iff_getElem?.mp hc
      have hqlt : q < passes := by
        obtain ⟨h, -⟩ := List.getElem?_eq_some.mp hq
        omega
      obtain ⟨c1, hc1, hff⟩ := hall q hqlt
      rw [hq] at hc1
      rw [Option.some.inj hc1]
      exact hff.1
  · intro m hm1 hmk
    obtain ⟨q, rfl⟩ : ∃ q, m = q + 1 := ⟨m - 1, by omega⟩
    obtain ⟨c, hc, hff⟩ := hall q (by omega)
    exact ⟨c, by simpa using hc, by simpa using hff⟩

/-- The classical argument: among the centers and one further curve `x`, two
have the same nearest element of `S`, and the later of the two is at distance
at least the cost of `x` from the earlier. -/
theorem farthest_first_two_approx {e : Nat → Nat → ℚ} {n : Nat}
    (hsym : ∀ i < n, ∀ j < n, e i j = e j i)
    (htri : ∀ i < n, ∀ j < n, ∀ l < n, e i l ≤ e i j + e j l)
    (C : List Nat) (hCb : ∀ c ∈ C, c < n)
    (hC : ∀ m, 1 ≤ m → m < C.length → ∃ c, C[m]? = some c ∧ IsFarthestFirst e n (C.take m) c)
    (S : List Nat) (hSne : S ≠ []) (hS : S.length ≤ C.length) (hSb : ∀ s ∈ S, s < n)
    (x : Nat) (hx : x < n) (rS : ℚ)
    (hrS : ∀ i < n, nearestDistance e i S ≤ ((rS : ℚ) : distance_t)) :
    nearestDistance e x C ≤ (((2 * rS : ℚ)) : distance_t) := by
  let pt : Nat → Nat := fun b => if h : b < C.length then C[b] else x
  have hpt_lt : ∀ b, pt b < n := by
    intro b
    by_cases h : b < C.length
    · simp only [pt, dif_pos h]; exact hCb _ (List.getElem_mem h)
    · simp only [pt, dif_neg h]; exact hx
  -- separation
  have hsep : ∀ a b, a < b → b ≤ C.length →
      nearestDistance e x C ≤ ((e (pt b) (pt a) : ℚ) : distance_t) := by
    intro a b hab hb
    have ha : a < C.length := by omega
    have hpa : pt a = C[a] := by simp only [pt, dif_pos ha]
    by_cases hbk : b < C.length
    · obtain ⟨c, hc, hff⟩ := hC b (by omega) hbk
      have hpb : pt b = c := by
        simp only [pt, dif_pos hbk]
        obtain ⟨_, h⟩ := List.getElem?_eq_some.mp hc
        exact h
      have hmem : pt a ∈ C.take b := by
        rw [hpa]
        exact List.mem_take_iff_getElem.mpr ⟨a, by simp; omega, rfl⟩
      rw [hpb]
      calc nearestDistance e x C
          ≤ nearestDistance e x (C.take b) :=
            nearestDistance_anti (fun y hy => List.mem_of_mem_take hy)
        _ ≤ nearestDistance e c (C.take b) := hff.2.1 x hx
        _ ≤ ((e c (pt a) : ℚ) : distance_t) := nearestDistance_le_of_mem hmem
    · have hpb : pt b = x := by simp only [pt, dif_neg hbk]
      rw [hpb]
      apply nearestDistance_le_of_mem
      rw [hpa]
      exact List.getElem_mem ha
  -- nearest element of S
  have hnear : ∀ b, ∃ s, s ∈ S ∧ nearestDistance e (pt b) S = ((e (pt b) s : ℚ) : distance_t) :=
    fun b => nearestDistance_attained hSne
  choose f hf using hnear
  have hcard : S.toFinset.card < (Finset.range (C.length + 1)).card := by
    rw [Finset.card_range]
    exact lt_of_le_of_lt (List.toFinset_card_le S) (by omega)
  obtain ⟨a, ha, b, hb, hne, hfab⟩ :=
    Finset.exists_ne_map_eq_of_card_lt_of_maps_to hcard
      (fun b _ => List.mem_toFinset.mpr (hf b).1)
  have main : ∀ a b, a < b → b ≤ C.length → f a = f b →
      nearestDistance e x C ≤ (((2 * rS : ℚ)) : distance_t) := by
    intro a b hab hb hfab
    have hs : f b < n := hSb _ (hf b).1
    have h1 : e (pt b) (f b) ≤ rS := by
      have := hrS (pt b) (hpt_lt b)
      rw [(hf b).2] at this
      exact WithTop.coe_le_coe.mp this
    have h2 : e (pt a) (f b) ≤ rS := by
      have := hrS (pt a) (hpt_lt a)
      rw [(hf a).2, hfab] at this
      exact WithTop.coe_le_coe.mp this
    have h3 : e (pt b) (pt a) ≤ e (pt b) (f b) + e (f b) (pt a) :=
      htri _ (hpt_lt b) _ hs _ (hpt_lt a)
    have h4 : e (f b) (pt a) = e (pt a) (f b) := hsym _ hs _ (hpt_lt a)
    refine le_trans (hsep a b hab hb) (WithTop.coe_le_coe.mpr ?_)
    linarith
  have ha1 : a ≤ C.length := by have := Finset.mem_range.mp ha; omega
  have hb1 : b ≤ C.length := by have := Finset.mem_range.mp hb; omega
  rcases Nat.lt_or_gt_of_ne hne with hlt | hgt
  · exact main a b hlt hb1 hfab
  · exact main b a hgt ha1 hfab.symm

theorem lookup_eq_dist {inp : Curves} (hzero : ∀ i < inp.size, inp.dist i i = 0) :
    ∀ i < inp.size, ∀ c, inp.lookup i c = inp.dist i c := by
  intro i hi c
  unfold Curves.lookup
  split
  · rename_i h; subst h; exact (hzero i hi).symm
  · rfl

theorem isFarthestFirst_congr {e e1 : Nat → Nat → ℚ} {n : Nat} {prev : List Nat} {c : Nat}
    (h : ∀ i < n, ∀ y, e i y = e1 i y) (hff : IsFarthestFirst e n prev c) :
    IsFarthestFirst e1 n prev c := by
  have hnd : ∀ i < n, nearestDistance e i prev = nearestDistance e1 i prev :=
    fun i hi => nearestDistance_congr (fun y _ => h i hi y)
  obtain ⟨h1, h2, h3⟩ := hff
  refine ⟨h1, ?_, ?_⟩
  · intro j hj; rw [← hnd j hj, ← hnd c h1]; exact h2 j hj
  · intro j hj; rw [← hnd j (lt_trans hj h1), ← hnd c h1]; exact h3 j hj

/-- C3. For a non-empty collection whose oracle is a metric on the curve
indices (non-negative, zero on identical indices, symmetric, triangle
inequality) and `k ≥ 1`, the centers `C` returned by `gonzalez(k, curves)`
without refinement are a 2-approximation for k-center: the k-center objective
of `C` is at most twice the k-center objective of every sequence `S` of `k`
curve indices (so of every set of `k` curve indices). -/
theorem gonzalez_two_approximation (inp : Curves) (k fuel : Nat) (hn : 0 < inp.size)
    (hk : 1 ≤ k)
    (hnn : ∀ i < inp.size, ∀ j < inp.size, 0 ≤ inp.dist i j)
    (hzero : ∀ i < inp.size, inp.dist i i = 0)
    (hsym : ∀ i < inp.size, ∀ j < inp.size, inp.dist i j = inp.dist j i)
    (htri : ∀ i < inp.size, ∀ j < inp.size, ∀ l < inp.size,
      inp.dist i l ≤ inp.dist i j + inp.dist j l) :
    ∃ out, ∃ r : ℚ, gonzalez fuel k inp false false = .ok out ∧
      IsKCenterObjective inp.dist inp.size out.result.centers (r : distance_t) ∧
      ∀ S : List Nat, S.length = k → (∀ s ∈ S, s < inp.size) →
        ∃ rS : ℚ, IsKCenterObjective inp.dist inp.size S (rS : distance_t) ∧ r ≤ 2 * rS := by
  have hsym1 : ∀ i j, i < inp.size → j < inp.size → inp.dist i j = inp.dist j i :=
    fun i j hi hj => hsym i hi j hj
  have hnn1 : ∀ i j, i < inp.size → j < inp.size → 0 ≤ inp.dist i j :=
    fun i j hi hj => hnn i hi j hj
  obtain ⟨cs, md, M1, hrun, -, hres⟩ := gonzalez_seed_run hn hsym1 hnn1 k
  obtain ⟨hlen, hCb, hpos⟩ := seedPure_positions hn (lookup_nonneg hnn1) (k - 1) 0
  rw [← hres] at hlen hCb hpos
  simp only at hlen hCb hpos
  have hlenk : cs.length = k := by omega
  have hCne : cs ≠ [] := by
    intro h; rw [h] at hlenk; simp at hlenk; omega
  have hC : ∀ m, 1 ≤ m → m < cs.length → ∃ c, cs[m]? = some c ∧
      IsFarthestFirst inp.dist inp.size (cs.take m) c := by
    intro m hm1 hm
    obtain ⟨c, hc, hff⟩ := hpos m hm1 (by omega)
    exact ⟨c, hc, isFarthestFirst_congr (lookup_eq_dist hzero) hff⟩
  obtain ⟨r, hr⟩ := exists_kCenterObjective (e := inp.dist) hn hCne
    (fun c hc => hnn 0 hn c (hCb c hc))
  refine ⟨_, r, gonzalez_plain_eq hn fuel k hrun, hr, ?_⟩
  intro S hSlen hSb
  have hSne : S ≠ [] := by
    intro h; rw [h] at hSlen; simp at hSlen; omega
  obtain ⟨rS, hrS⟩ := exists_kCenterObjective (e := inp.dist) hn hSne
    (fun s hs => hnn 0 hn s (hSb s hs))
  refine ⟨rS, hrS, ?_⟩
  obtain ⟨⟨x, hx, hxr⟩, -⟩ := hr
  have := farthest_first_two_approx hsym htri cs hCb hC S hSne (by omega) hSb x hx rS hrS.2
  rw [hxr] at this
  exact WithTop.coe_le_coe.mp this

/-- Witness for C3 on the example table with `k = 2`. -/
theorem gonzalez_two_approximation_witness :
    ∃ out, ∃ r : ℚ, gonzalez 0 2 exampleCurves false false = .ok out ∧
      IsKCenterObjective exampleCurves.dist exampleCurves.size out.result.centers
        (r : distance_t) ∧
      ∀ S : List Nat, S.length = 2 → (∀ s ∈ S, s < exampleCurves.size) →
        ∃ rS : ℚ, IsKCenterObjective exampleCurves.dist exampleCurves.size S (rS : distance_t) ∧
          r ≤ 2 * rS :=
  gonzalez_two_approximation exampleCurves 2 0 (by decide) (by decide) (by decide) (by decide)
    (by decide) (by decide!)

/-! ## Symmetry and idempotence of the cache -/

theorem cheap_dist_symm {inp : Curves} {M M1 : Distances} {i j : Nat}
    (h : cheap_dist i j inp M = .ok M1) (hM : ∀ a b, M.cell a b = M.cell b a) :
    ∀ a b, M1.cell a b = M1.cell b a := by
  unfold cheap_dist at h
  split at h
  · split at h
    · split at h
      · injection h with h
        subst h
        intro a b
        simp only [Distances.write]
        split_ifs <;> first | rfl | exact hM a b | (exfalso; tauto)
      · cases h
    · injection h with h
      subst h
      exact hM
  · cases h

theorem cheap_dist_calls_symm {inp : Curves} :
    ∀ (calls : List (Nat × Nat)) (M : Distances),
      (∀ p ∈ calls, p.1 < inp.size ∧ p.2 < inp.size) → M.size = inp.size →
      (∀ a b, M.cell a b = M.cell b a) →
      ∃ M1, cheap_dist_calls inp calls M = .ok M1 ∧ M1.size = inp.size ∧
        ∀ a b, M1.cell a b = M1.cell b a := by
  intro calls
  induction calls with
  | nil => intro M _ hs hM; exact ⟨M, rfl, hs, hM⟩
  | cons p rest ih =>
    intro M hvalid hs hM
    obtain ⟨i, j⟩ := p
    have hp := hvalid (i, j) (List.mem_cons_self _ _)
    obtain ⟨M0, h0, hs0⟩ := cheap_dist_total hs hp.1 hp.2
    obtain ⟨M1, h1, hs1, hM1⟩ :=
      ih M0 (fun q hq => hvalid q (List.mem_cons_of_mem _ hq)) hs0 (cheap_dist_symm h0 hM)
    exact ⟨M1, by simp only [cheap_dist_calls, h0, h1], hs1, hM1⟩

theorem cheap_dist_calls_inv {inp : Curves} {P : Nat → Nat → ℚ → Prop} :
    ∀ (calls : List (Nat × Nat)) (M : Distances),
      (∀ p ∈ calls, p.1 < inp.size ∧ p.2 < inp.size) → CacheInv inp P M →
      ∃ M1, cheap_dist_calls inp calls M = .ok M1 ∧ CacheInv inp P M1 ∧ M.Extends M1 := by
  intro calls
  induction calls with
  | nil => intro M _ hM; exact ⟨M, rfl, hM, extends_refl _⟩
  | cons p rest ih =>
    intro M hvalid hM
    obtain ⟨i, j⟩ := p
    have hp := hvalid (i, j) (List.mem_cons_self _ _)
    obtain ⟨M0, h0, -⟩ := cheap_dist_total hM.size_eq hp.1 hp.2
    obtain ⟨hM0, hext0, -⟩ := cheap_dist_inv hM hp.1 hp.2 h0
    obtain ⟨M1, h1, hM1, hext1⟩ := ih M0 (fun q hq => hvalid q (List.mem_cons_of_mem _ hq)) hM0
    exact ⟨M1, by simp only [cheap_dist_calls, h0, h1], hM1, extends_trans hext0 hext1⟩

/-- C12. Symmetry of the table is an invariant of `cheap_dist`: from a freshly
allocated table, with or without the diagonal set to 0, every finite sequence
of calls with valid indices succeeds and leaves `distances[i][j] ==
distances[j][i]` for all `i`, `j`, whatever the oracle returns. -/
theorem cheap_dist_keeps_symmetry (inp : Curves) (calls : List (Nat × Nat)) (zeroed : Bool)
    (hvalid : ∀ p ∈ calls, p.1 < inp.size ∧ p.2 < inp.size) :
    ∃ M, cheap_dist_calls inp calls
        (if zeroed then Distances.zeroDiagonal inp.size (Distances.fresh inp.size)
         else Distances.fresh inp.size) = .ok M ∧
      ∀ i j, M.cell i j = M.cell j i := by
  have hfresh : ∀ a b, (Distances.fresh inp.size).cell a b = (Distances.fresh inp.size).cell b a :=
    fun _ _ => rfl
  have hzero : ∀ a b,
      (Distances.zeroDiagonal inp.size (Distances.fresh inp.size)).cell a b =
        (Distances.zeroDiagonal inp.size (Distances.fresh inp.size)).cell b a := by
    intro a b
    obtain ⟨-, -, h3⟩ := zeroDiagonal_spec inp.size (Distances.fresh inp.size)
    rw [h3, h3]
    by_cases hab : a = b
    · subst hab; rfl
    · have hba : ¬ b = a := fun h => hab h.symm
      simp [hab, hba, Distances.fresh]
  cases zeroed
  · obtain ⟨M, h, -, hM⟩ := cheap_dist_calls_symm calls (Distances.fresh inp.size) hvalid rfl hfresh
    exact ⟨M, h, hM⟩
  · obtain ⟨M, h, -, hM⟩ := cheap_dist_calls_symm calls
      (Distances.zeroDiagonal inp.size (Distances.fresh inp.size)) hvalid
      (gonzalez_start_size inp) hzero
    exact ⟨M, h, hM⟩

/-- Witness for C12: an oracle that is not symmetric, three curves, four calls. -/
theorem cheap_dist_keeps_symmetry_witness :
    ∃ M, cheap_dist_calls { size := 3, dist := fun i j => (i : ℚ) - j }
        [(0, 1), (1, 0), (2, 2), (1, 2)]
        (if false then Distances.zeroDiagonal 3 (Distances.fresh 3) else Distances.fresh 3)
          = .ok M ∧
      ∀ i j, M.cell i j = M.cell j i :=
  cheap_dist_keeps_symmetry { size := 3, dist := fun i j => (i : ℚ) - j }
    [(0, 1), (1, 0), (2, 2), (1, 2)] false (by decide)

/-- C13. Idempotence of `cheap_dist` for a non-negative oracle and a symmetric
table: a call on a filled entry returns the table as it was (no cell and no
oracle call added); a call on an unfilled entry adds one oracle call and writes
the oracle's value to the cells `(i, j)` and `(j, i)` and to no other; and
after any further sequence of calls the cells `(i, j)` and `(j, i)` still hold
the value read after the first call. -/
theorem cheap_dist_idempotent (inp : Curves) (M : Distances) (i j : Nat)
    (calls : List (Nat × Nat))
    (hnn : ∀ a < inp.size, ∀ b < inp.size, 0 ≤ inp.dist a b)
    (hs : M.size = inp.size) (hsymm : ∀ a b, M.cell a b = M.cell b a)
    (hi : i < inp.size) (hj : j < inp.size)
    (hvalid : ∀ p ∈ calls, p.1 < inp.size ∧ p.2 < inp.size) :
    ∃ M1 M2, cheap_dist i j inp M = .ok M1 ∧
      (0 ≤ M.cell i j → M1 = M) ∧
      (M.cell i j < 0 → M1.size = M.size ∧ M1.oracleCalls = M.oracleCalls ++ [(i, j)] ∧
        ∀ a b, M1.cell a b =
          if (a = i ∧ b = j) ∨ (a = j ∧ b = i) then inp.dist i j else M.cell a b) ∧
      cheap_dist_calls inp calls M1 = .ok M2 ∧
      M2.cell i j = M1.cell i j ∧ M2.cell j i = M1.cell i j := by
  have hM : CacheInv inp (fun _ _ _ => True) M :=
    ⟨hs, hsymm, fun _ _ _ _ _ => trivial, fun a b ha hb _ => ⟨hnn a ha b hb, trivial, trivial⟩⟩
  obtain ⟨M1, h1, -⟩ := cheap_dist_total hs hi hj
  obtain ⟨hM1, -, hfill⟩ := cheap_dist_inv hM hi hj h1
  obtain ⟨M2, h2, -, hext⟩ := cheap_dist_calls_inv calls M1 hvalid hM1
  refine ⟨M1, M2, h1, ?_, ?_, h2, hext i j hfill, ?_⟩
  · intro hfilled
    have hnot : ¬ M.cell i j < 0 := not_lt.mpr hfilled
    simp only [cheap_dist, hs, hi, hj, and_self, if_true, if_neg hnot] at h1
    injection h1 with h1
    exact h1.symm
  · intro hneg
    simp only [cheap_dist, hs, hi, hj, and_self, if_true, if_pos hneg] at h1
    injection h1 with h1
    subst h1
    refine ⟨rfl, rfl, ?_⟩
    intro a b
    simp only [Distances.write]
    split_ifs <;> first | rfl | (exfalso; tauto)
  · have h0 : 0 ≤ M1.cell j i := by rw [hM1.symm j i]; exact hfill
    rw [hext j i h0, hM1.symm j i]

/-- Witness for C13 on the example table: a fresh table, the call `(1, 2)`,
then three further calls. -/
theorem cheap_dist_idempotent_witness :
    ∃ M1 M2, cheap_dist 1 2 exampleCurves (Distances.fresh 4) = .ok M1 ∧
      (0 ≤ (Distances.fresh 4).cell 1 2 → M1 = Distances.fresh 4) ∧
      ((Distances.fresh 4).cell 1 2 < 0 → M1.size = (Distances.fresh 4).size ∧
        M1.oracleCalls = (Distances.fresh 4).oracleCalls ++ [(1, 2)] ∧
        ∀ a b, M1.cell a b =
          if (a = 1 ∧ b = 2) ∨ (a = 2 ∧ b = 1) then exampleCurves.dist 1 2
          else (Distances.fresh 4).cell a b) ∧
      cheap_dist_calls exampleCurves [(2, 1), (0, 3), (1, 2)] M1 = .ok M2 ∧
      M2.cell 1 2 = M1.cell 1 2 ∧ M2.cell 2 1 = M1.cell 1 2 :=
  cheap_dist_idempotent exampleCurves (Distances.fresh 4) 1 2 [(2, 1), (0, 3), (1, 2)]
    (by decide) rfl (fun _ _ => rfl) (by decide) (by decide) (by decide)

/-! ## The value reported by the seeding -/

theorem seedPure_snoc (e : Nat → Nat → ℚ) (n : Nat) :
    ∀ (passes : Nat) (cs : List Nat) (md : distance_t),
      seedPure e n (passes + 1) cs md =
        seedPure e n 1 (seedPure e n passes cs md).1 (seedPure e n passes cs md).2 := by
  intro passes
  induction passes with
  | zero => intro cs md; rfl
  | succ p ih =>
    intro cs md
    have hunf : ∀ (q : Nat) (cs : List Nat) (md : distance_t), seedPure e n (q + 1) cs md =
        seedPure e n q
          (cs ++ [(scanMax (fun j => nearestDistance e j cs) (List.range n) 0 0).2])
          (scanMax (fun j => nearestDistance e j cs) (List.range n) 0 0).1 :=
      fun _ _ _ => rfl
    rw [hunf (p + 1) cs md, ih, ← hunf p cs md]

/-- The value of the pure seeding after at least one pass is the k-center
objective of the centers before the last one, attained at the last center. -/
theorem seedPure_value {e : Nat → Nat → ℚ} {n : Nat} (hn : 0 < n)
    (he : ∀ i j, i < n → j < n → 0 ≤ e i j) (passes : Nat) (hp : 0 < passes)
    (md : distance_t) :
    ∃ prev c, (seedPure e n passes [0] md).1 = prev ++ [c] ∧ prev.length = passes ∧
      (∀ y ∈ prev, y < n) ∧ IsFarthestFirst e n prev c ∧
      (seedPure e n passes [0] md).2 = nearestDistance e c prev := by
  have h0 : ∀ c ∈ [0], c < n := by
    intro c hc; rw [List.mem_singleton.mp hc]; exact hn
  obtain ⟨t, ht, hlen, hall, -, hlast⟩ := seedPure_spec hn he passes [0] md h0
  obtain ⟨hlenC, hCb, -⟩ := seedPure_positions hn he passes md
  obtain ⟨c, hc, hv⟩ := hlast hp
  obtain ⟨c1, hc1, hff⟩ := hall (passes - 1) (by omega)
  rw [hc] at hc1
  have hcc : c = c1 := Option.some.inj hc1
  subst hcc
  have hsplit : t = t.take (passes - 1) ++ [c] := by
    have h1 : t.take (passes - 1 + 1) = t.take (passes - 1) ++ (t[passes - 1]?).toList :=
      List.take_succ
    have h2 : t.take (passes - 1 + 1) = t := by
      apply List.take_of_length_le; omega
    rw [h2, hc] at h1
    exact h1
  refine ⟨[0] ++ t.take (passes - 1), c, ?_, ?_, ?_, hff, hv⟩
  · rw [ht, List.append_assoc, ← hsplit]
  · simp only [List.length_append, List.length_singleton, List.length_take]; omega
  · intro y hy
    apply hCb
    rw [ht]
    rcases List.mem_append.mp hy with hy | hy
    · exact List.mem_append_left _ hy
    · exact List.mem_append_right _ (List.mem_of_mem_take hy)

/-- C17. For a non-empty collection with a symmetric non-negative oracle the
value reported by `gonzalez(k, curves)` without refinement is the maximum cost
found in the last seeding pass: for `k ≥ 2` it is the maximum over all curves
of the distance to the nearest of the first `k - 1` centers, which is the
distance from the last center to its nearest earlier center; for `k ≤ 1`, where
no pass runs, it is 0. On the example table with `k = 2` the value is 5. -/
theorem gonzalez_value_is_last_pass_maximum (inp : Curves) (k fuel : Nat) (hn : 0 < inp.size)
    (hsym : ∀ i < inp.size, ∀ j < inp.size, inp.dist i j = inp.dist j i)
    (hnn : ∀ i < inp.size, ∀ j < inp.size, 0 ≤ inp.dist i j) :
    (∃ out v, gonzalez fuel k inp false false = .ok out ∧ out.result.value = some v ∧
      (k ≤ 1 → v = 0) ∧
      (2 ≤ k →
        IsKCenterObjective inp.lookup inp.size (out.result.centers.take (k - 1)) v ∧
        ∃ c, out.result.centers[k - 1]? = some c ∧
          v = nearestDistance inp.lookup c (out.result.centers.take (k - 1)))) ∧
    (gonzalez 0 2 exampleCurves false false).toOption.map (fun o => o.result.value)
      = some (some 5) := by
  refine ⟨?_, by decide⟩
  have hsym1 : ∀ i j, i < inp.size → j < inp.size → inp.dist i j = inp.dist j i :=
    fun i j hi hj => hsym i hi j hj
  have hnn1 : ∀ i j, i < inp.size → j < inp.size → 0 ≤ inp.dist i j :=
    fun i j hi hj => hnn i hi j hj
  obtain ⟨cs, md, M1, hrun, -, hres⟩ := gonzalez_seed_run hn hsym1 hnn1 k
  have hcs : cs = (seedPure inp.lookup inp.size (k - 1) [0] 0).1 := congrArg Prod.fst hres
  have hmd : md = (seedPure inp.lookup inp.size (k - 1) [0] 0).2 := congrArg Prod.snd hres
  refine ⟨_, md, gonzalez_plain_eq hn fuel k hrun, rfl, ?_, ?_⟩
  · intro hk
    have hzero : k - 1 = 0 := by omega
    rw [hmd, hzero]
    rfl
  · intro hk
    obtain ⟨prev, c, hsplit, hlen, -, hff, hv⟩ :=
      seedPure_value hn (lookup_nonneg hnn1) (k - 1) (by omega) 0
    rw [← hcs] at hsplit
    rw [← hmd] at hv
    have htake : cs.take (k - 1) = prev := by
      rw [hsplit, ← hlen]; simp
    have hget : cs[k - 1]? = some c := by
      rw [hsplit, ← hlen]; simp
    show IsKCenterObjective inp.lookup inp.size (cs.take (k - 1)) md ∧
      ∃ c, cs[k - 1]? = some c ∧ md = nearestDistance inp.lookup c (cs.take (k - 1))
    rw [htake]
    refine ⟨⟨⟨c, hff.1, hv.symm⟩, ?_⟩, c, hget, hv⟩
    intro i hi
    rw [hv]
    exact hff.2.1 i hi

/-- Witness for C17 on the example table with `k = 3`. -/
theorem gonzalez_value_is_last_pass_maximum_witness :
    (∃ out v, gonzalez 0 3 exampleCurves false false = .ok out ∧ out.result.value = some v ∧
      (3 ≤ 1 → v = 0) ∧
      (2 ≤ 3 →
        IsKCenterObjective exampleCurves.lookup exampleCurves.size
          (out.result.centers.take (3 - 1)) v ∧
        ∃ c, out.result.centers[3 - 1]? = some c ∧
          v = nearestDistance exampleCurves.lookup c (out.result.centers.take (3 - 1)))) ∧
    (gonzalez 0 2 exampleCurves false false).toOption.map (fun o => o.result.value)
      = some (some 5) :=
  gonzalez_value_is_last_pass_maximum exampleCurves 3 0 (by decide) (by decide) (by decide)

/-- C14. Farthest-point monotonicity, for a non-empty collection with a
symmetric non-negative oracle and `k ≥ 2`: the run for `k + 1` centers is the
run for `k` centers followed by one more pass (its first `k` centers are those
of the shorter run), and the maximum cost found in that further pass, the value
of `gonzalez(k + 1, curves)`, is at most the maximum found in the pass before,
the value of `gonzalez(k, curves)`. -/
theorem gonzalez_pass_maximum_antitone (inp : Curves) (k fuel : Nat) (hn : 0 < inp.size)
    (hk : 2 ≤ k)
    (hsym : ∀ i < inp.size, ∀ j < inp.size, inp.dist i j = inp.dist j i)
    (hnn : ∀ i < inp.size, ∀ j < inp.size, 0 ≤ inp.dist i j) :
    ∃ out1 out2 v1 v2, gonzalez fuel k inp false false = .ok out1 ∧
      gonzalez fuel (k + 1) inp false false = .ok out2 ∧
      out1.result.value = some v1 ∧ out2.result.value = some v2 ∧
      out2.result.centers.take k = out1.result.centers ∧ v2 ≤ v1 := by
  have hsym1 : ∀ i j, i < inp.size → j < inp.size → inp.dist i j = inp.dist j i :=
    fun i j hi hj => hsym i hi j hj
  have hnn1 : ∀ i j, i < inp.size → j < inp.size → 0 ≤ inp.dist i j :=
    fun i j hi hj => hnn i hi j hj
  obtain ⟨cs1, md1, M1, hrun1, -, hres1⟩ := gonzalez_seed_run hn hsym1 hnn1 k
  obtain ⟨cs2, md2, M2, hrun2, -, hres2⟩ := gonzalez_seed_run hn hsym1 hnn1 (k + 1)
  refine ⟨_, _, md1, md2, gonzalez_plain_eq hn fuel k hrun1,
    gonzalez_plain_eq hn fuel (k + 1) hrun2, rfl, rfl, ?_⟩
  show cs2.take k = cs1 ∧ md2 ≤ md1
  have hidx : k + 1 - 1 = (k - 1) + 1 := by omega
  rw [hidx, seedPure_snoc, ← hres1] at hres2
  obtain ⟨prev, c, hsplit, hlen, hprev, hff, hv⟩ :=
    seedPure_value hn (lookup_nonneg hnn1) (k - 1) (by omega) 0
  rw [← hres1] at hsplit hv
  simp only at hsplit hv hres2
  have hcs1 : ∀ y ∈ cs1, y < inp.size := by
    intro y hy
    rw [hsplit] at hy
    rcases List.mem_append.mp hy with hy | hy
    · exact hprev y hy
    · rw [List.mem_singleton.mp hy]; exact hff.1
  have hf0 : (0 : distance_t) ≤ nearestDistance inp.lookup 0 cs1 :=
    nearestDistance_nonneg (fun y hy => lookup_nonneg hnn1 0 y hn (hcs1 y hy))
  have hscan := scanMax_spec (f := fun j => nearestDistance inp.lookup j cs1) hf0 hn
  simp only at hscan
  have hunf : seedPure inp.lookup inp.size 1 cs1 md1 =
      (cs1 ++ [(scanMax (fun j => nearestDistance inp.lookup j cs1) (List.range inp.size) 0 0).2],
        (scanMax (fun j => nearestDistance inp.lookup j cs1) (List.range inp.size) 0 0).1) := rfl
  rw [hunf] at hres2
  generalize scanMax (fun j => nearestDistance inp.lookup j cs1) (List.range inp.size) 0 0 = r
    at hscan hres2
  obtain ⟨hlt, hval, -, -⟩ := hscan
  have hcs2 : cs2 = cs1 ++ [r.2] := congrArg Prod.fst hres2
  have hmd2 : md2 = r.1 := congrArg Prod.snd hres2
  have hlen1 : cs1.length = k := by
    rw [hsplit]; simp only [List.length_append, List.length_singleton, hlen]; omega
  constructor
  · rw [hcs2, ← hlen1]; simp
  · rw [hmd2, hval, hv]
    calc nearestDistance inp.lookup r.2 cs1
        ≤ nearestDistance inp.lookup r.2 prev := by
          apply nearestDistance_anti
          intro y hy; rw [hsplit]; exact List.mem_append_left _ hy
      _ ≤ nearestDistance inp.lookup c prev := hff.2.1 r.2 hlt

/-- Witness for C14 on the example table with `k = 2`. -/
theorem gonzalez_pass_maximum_antitone_witness :
    ∃ out1 out2 v1 v2, gonzalez 0 2 exampleCurves false false = .ok out1 ∧
      gonzalez 0 (2 + 1) exampleCurves false false = .ok out2 ∧
      out1.result.value = some v1 ∧ out2.result.value = some v2 ∧
      out2.result.centers.take 2 = out1.result.centers ∧ v2 ≤ v1 :=
  gonzalez_pass_maximum_antitone exampleCurves 2 0 (by decide) (by decide) (by decide)
    (by decide)

/-! ## The value and the centers after refinement -/

theorem gonzalez_try_nodup {inp : Curves} {g i : Nat} {approxcost : distance_t} :
    ∀ (js : List Nat) (curr centers : List Nat) (cost : distance_t) (found : Bool)
      (M : Distances) (cs1 : List Nat) (cost1 : distance_t) (found1 : Bool) (M1 : Distances),
      curr.Nodup → centers.Nodup →
      gonzalez_try inp g approxcost i js curr centers cost found M
        = .ok (cs1, cost1, found1, M1) →
      cs1.Nodup := by
  intro js
  induction js with
  | nil =>
    intro curr centers cost found M cs1 cost1 found1 M1 _ hc h
    simp only [gonzalez_try, Except.ok.injEq, Prod.mk.injEq] at h
    rw [← h.1]; exact hc
  | cons j rest ih =>
    intro curr centers cost found M cs1 cost1 found1 M1 hcurr hc h
    simp only [gonzalez_try] at h
    split at h
    · exact ih _ _ _ _ _ _ _ _ _ hcurr hc h
    · rename_i hmem
      split at h
      · have hset : (curr.set i j).Nodup := hcurr.set hmem
        split at h
        · cases h
        · split at h
          · exact ih _ _ _ _ _ _ _ _ _ hset hset h
          · exact ih _ _ _ _ _ _ _ _ _ hset hc h
      · cases h

theorem gonzalez_pass_nodup {inp : Curves} {g : Nat} {approxcost : distance_t} :
    ∀ (is : List Nat) (centers : List Nat) (cost : distance_t) (found : Bool)
      (M : Distances) (cs1 : List Nat) (cost1 : distance_t) (found1 : Bool) (M1 : Distances),
      centers.Nodup →
      gonzalez_pass inp g approxcost is centers cost found M = .ok (cs1, cost1, found1, M1) →
      cs1.Nodup := by
  intro is
  induction is with
  | nil =>
    intro centers cost found M cs1 cost1 found1 M1 hc h
    simp only [gonzalez_pass, Except.ok.injEq, Prod.mk.injEq] at h
    rw [← h.1]; exact hc
  | cons i rest ih =>
    intro centers cost found M cs1 cost1 found1 M1 hc h
    simp only [gonzalez_pass] at h
    split at h
    · cases h
    · rename_i cs0 cost0 found0 M0 h0
      exact ih _ _ _ _ _ _ _ _ (gonzalez_try_nodup _ _ _ _ _ _ _ _ _ _ hc hc h0) h

theorem gonzalez_while_nodup {inp : Curves} {K g : Nat} {approxcost : distance_t} :
    ∀ (fuel : Nat) (centers : List Nat) (cost : distance_t) (M : Distances) (cs1 : List Nat)
      (cost1 : distance_t) (M1 : Distances),
      centers.Nodup →
      gonzalez_while K inp g approxcost fuel centers cost M = .ok (cs1, cost1, M1) →
      cs1.Nodup := by
  intro fuel
  induction fuel with
  | zero => intro centers cost M cs1 cost1 M1 _ h; cases h
  | succ fuel ih =>
    intro centers cost M cs1 cost1 M1 hc h
    simp only [gonzalez_while] at h
    split at h
    · cases h
    · rename_i cs0 cost0 found0 M0 h0
      have hc0 : cs0.Nodup := gonzalez_pass_nodup _ _ _ _ _ _ _ _ _ hc h0
      split at h
      · exact ih _ _ _ _ _ _ hc0 h
      · simp only [Except.ok.injEq, Prod.mk.injEq] at h
        rw [← h.1]; exact hc0

/-! ## Distinct centers -/

theorem gonzalez_start_separating {inp : Curves}
    (hpos : ∀ i < inp.size, ∀ j < inp.size, i ≠ j → 0 < inp.dist i j) :
    CacheInv inp Separating (Distances.zeroDiagonal inp.size (Distances.fresh inp.size)) := by
  obtain ⟨h1, -, h3⟩ := zeroDiagonal_spec inp.size (Distances.fresh inp.size)
  refine ⟨h1, ?_, ?_, ?_⟩
  · intro i j
    rw [h3, h3]
    by_cases hij : i = j
    · subst hij; rfl
    · have hji : ¬ j = i := fun h => hij h.symm
      simp [hij, hji, Distances.fresh]
  · intro i j hi hj
    rw [h3]
    by_cases hij : i = j
    · subst hij
      simp only [hi, and_self, if_true]
      intro _
      exact ⟨fun _ => rfl, fun h => absurd rfl h⟩
    · simp only [hij, false_and, if_false, Distances.fresh]
      intro h
      norm_num at h
  · intro i j hi hj
    rw [h3]
    by_cases hij : i = j
    · subst hij; simp [hi]
    · have hji : j ≠ i := fun h => hij h.symm
      intro _
      have hp := hpos i hi j hj hij
      exact ⟨le_of_lt hp, ⟨fun h => absurd h hij, fun _ => hp⟩, ⟨fun h => absurd h hji, fun _ => hp⟩⟩

theorem exists_not_mem_of_length_lt {n : Nat} {cs : List Nat} (hlen : cs.length < n) :
    ∃ j < n, j ∉ cs := by
  by_contra hcon
  have hsub : List.range n ⊆ cs := by
    intro j hj
    by_contra hjn
    exact hcon ⟨j, List.mem_range.mp hj, hjn⟩
  have := ((List.nodup_range n).subperm hsub).length_le
  rw [List.length_range] at this
  omega

/-- A seeding pass over distinct centers, fewer than there are curves, picks a
curve that is not yet a center, when distinct curves are at positive distance. -/
theorem gonzalez_scan_new_center {inp : Curves} (hn : 0 < inp.size) {cs : List Nat}
    (hcs : ∀ c ∈ cs, c < inp.size) (hne : cs ≠ []) (hlen : cs.length < inp.size)
    {M M0 : Distances} {md0 : distance_t} {mc0 : Nat}
    (hM : CacheInv inp Separating M)
    (h0 : gonzalez_scan inp cs (List.range inp.size) 0 0 M = .ok (md0, mc0, M0)) :
    mc0 ∉ cs ∧ mc0 < inp.size ∧ CacheInv inp Separating M0 := by
  have hrange : ∀ j ∈ List.range inp.size, j < inp.size := fun _ hj => List.mem_range.mp hj
  obtain ⟨hM0, -, hfill, hres⟩ := gonzalez_scan_inv hcs _ 0 0 M md0 mc0 M0 hrange hM h0
  have hfill1 : ∀ j < inp.size, ∀ c ∈ cs, 0 ≤ M0.cell j c :=
    fun j hj => hfill j (List.mem_range.mpr hj)
  have hspec := scanMax_spec (f := fun j => nearestDistance M0.cell j cs)
    (nearestDistance_nonneg (hfill1 0 hn)) hn
  simp only at hspec
  rw [← hres] at hspec
  simp only at hspec
  obtain ⟨hlt, -, hmax, -⟩ := hspec
  refine ⟨?_, hlt, hM0⟩
  obtain ⟨j, hj, hjn⟩ := exists_not_mem_of_length_lt hlen
  obtain ⟨c, hc, hat⟩ := nearestDistance_attained (e := M0.cell) (i := j) hne
  have hjc : j ≠ c := fun h => hjn (h ▸ hc)
  have hposj : (0 : ℚ) < M0.cell j c :=
    (hM0.filled j c hj (hcs c hc) (hfill1 j hj c hc)).2 hjc
  have hbig : (0 : distance_t) < nearestDistance M0.cell mc0 cs := by
    refine lt_of_lt_of_le ?_ (hmax j hj)
    rw [hat]
    exact WithTop.coe_pos.mpr hposj
  intro hmem
  have hzero : M0.cell mc0 mc0 = 0 :=
    (hM0.filled mc0 mc0 hlt hlt (hfill1 mc0 hlt mc0 hmem)).1 rfl
  have hle := nearestDistance_le_of_mem (e := M0.cell) (i := mc0) hmem
  rw [hzero] at hle
  exact absurd hbig (not_lt.mpr hle)

theorem gonzalez_seed_nodup {inp : Curves} (hn : 0 < inp.size) :
    ∀ (passes : Nat) (cs : List Nat) (md : distance_t) (M : Distances) (cs1 : List Nat)
      (md1 : distance_t) (M1 : Distances),
      (∀ c ∈ cs, c < inp.size) → cs ≠ [] → cs.Nodup → cs.length + passes ≤ inp.size →
      CacheInv inp Separating M →
      gonzalez_seed inp passes cs md M = .ok (cs1, md1, M1) → cs1.Nodup := by
  intro passes
  induction passes with
  | zero =>
    intro cs md M cs1 md1 M1 _ _ hnd _ _ h
    simp only [gonzalez_seed, Except.ok.injEq, Prod.mk.injEq] at h
    rw [← h.1]; exact hnd
  | succ p ih =>
    intro cs md M cs1 md1 M1 hcs hne hnd hlen hM h
    have hrange : ∀ j ∈ List.range inp.size, j < inp.size := fun _ hj => List.mem_range.mp hj
    obtain ⟨md0, mc0, M0, h0, -, -⟩ :=
      gonzalez_scan_total hcs (List.range inp.size) 0 0 M hrange hM.size_eq hn
    obtain ⟨hnew, hmc0, hM0⟩ := gonzalez_scan_new_center hn hcs hne (by omega) hM h0
    simp only [gonzalez_seed, h0] at h
    refine ih (cs ++ [mc0]) md0 M0 cs1 md1 M1 ?_ (by simp) ?_ ?_ hM0 h
    · intro c hc
      rcases List.mem_append.mp hc with hc | hc
      · exact hcs c hc
      · rw [List.mem_singleton.mp hc]; exact hmc0
    · rw [List.nodup_append]
      refine ⟨hnd, List.nodup_singleton _, ?_⟩
      intro a ha hb
      rw [List.mem_singleton.mp hb] at ha
      exact hnew ha
    · simp only [List.length_append, List.length_singleton]; omega

/-- C11 (as stated it fails). On the example table a request for 6 centers
returns `[0, 2, 3, 1, 0, 0]`, with and without refinement: six centers for
four curves, curve 0 three times. On two curves at distance 0 a request for 2
centers returns `[0, 0]`. -/
theorem gonzalez_centers_can_repeat :
    (gonzalez 0 6 exampleCurves false false).toOption.map (fun o => o.result.centers)
        = some [0, 2, 3, 1, 0, 0] ∧
      (gonzalez 1 6 exampleCurves true false).toOption.map (fun o => o.result.centers)
        = some [0, 2, 3, 1, 0, 0] ∧
      ¬ ([0, 2, 3, 1, 0, 0] : List Nat).Nodup ∧
      ¬ ([0, 2, 3, 1, 0, 0] : List Nat).length ≤ exampleCurves.size ∧
      (gonzalez 0 2 { size := 2, dist := fun _ _ => 0 } false false).toOption.map
        (fun o => o.result.centers) = some [0, 0] := by
  refine ⟨by decide, by decide!, by decide, by decide, by decide⟩

/-- C11 (amended). For a non-empty collection of `n` curves with non-negative
distances that are positive between distinct curves, every `k ≤ n` and either
setting of the refinement flag (with `gamma` defined when it is set, which
needs `k ≥ 1`), the centers returned by `gonzalez` are valid curve indices,
each at most once, and there are at most `n` of them. -/
theorem gonzalez_centers_distinct (inp : Curves) (k : Nat) (refinement : Bool)
    (hn : 0 < inp.size) (hkn : k ≤ inp.size)
    (hnn : ∀ i < inp.size, ∀ j < inp.size, 0 ≤ inp.dist i j)
    (hpos : ∀ i < inp.size, ∀ j < inp.size, i ≠ j → 0 < inp.dist i j)
    (hdiv : refinement = true → (3 * k * inp.size) % 2 ^ 64 ≠ 0) :
    ∃ F, ∀ fuel, F ≤ fuel →
      ∃ out, gonzalez fuel k inp refinement false = .ok out ∧
        out.result.centers.Nodup ∧ out.result.centers.length ≤ inp.size ∧
        ∀ c ∈ out.result.centers, c < inp.size := by
  have hnn1 : ∀ i j, i < inp.size → j < inp.size → 0 ≤ inp.dist i j :=
    fun i j hi hj => hnn i hi j hj
  have h0 : ∀ c ∈ [0], c < inp.size := by
    intro c hc; rw [List.mem_singleton.mp hc]; exact hn
  have hseednd : ∀ {cs : List Nat} {md : distance_t} {M1 : Distances},
      gonzalez_seed inp (k - 1) [0] 0
        (Distances.zeroDiagonal inp.size (Distances.fresh inp.size)) = .ok (cs, md, M1) →
      cs.Nodup :=
    fun h => gonzalez_seed_nodup hn (k - 1) [0] 0 _ _ _ _ h0 (by simp) (List.nodup_singleton 0)
      (by simp only [List.length_singleton]; omega) (gonzalez_start_separating hpos) h
  cases refinement
  · refine ⟨0, fun fuel _ => ?_⟩
    obtain ⟨t, md, M1, hrun, -, ht, hlen⟩ :=
      gonzalez_seed_total hn (k - 1) [0] 0 _ h0 (gonzalez_start_size inp)
    refine ⟨_, gonzalez_plain_eq hn fuel k hrun, hseednd hrun, ?_, ?_⟩
    · show ([0] ++ t).length ≤ inp.size
      simp only [List.length_append, List.length_singleton, hlen]; omega
    · intro c hc
      rcases List.mem_append.mp hc with hc | hc
      · exact h0 c hc
      · exact ht c hc
  · have hd := hdiv rfl
    have hk : 1 ≤ k := by
      rcases Nat.eq_zero_or_pos k with h | h
      · subst h; simp at hd
      · exact h
    obtain ⟨t, md, M1, a, M2, hseed, hsum, -, hloop⟩ := gonzalez_refine_run hn hk hnn1
    refine ⟨(costValues inp inp.size).card + 1, fun fuel hfuel => ?_⟩
    obtain ⟨cs1, v, M3, hw, hst3, -⟩ :=
      hloop fuel (1 / ((3 * k * inp.size) % 2 ^ 64)) (by omega)
    refine ⟨_, gonzalez_arya_eq hn hseed ((gonzalez_refine_eq fuel hsum hd).trans hw), ?_, ?_,
      hst3.bounded⟩
    · exact gonzalez_while_nodup _ _ _ _ _ _ _ (hseednd hseed) hw
    · show cs1.length ≤ inp.size
      rw [hst3.len]; exact hkn

/-- Witness for C11 (amended): three curves at pairwise positive distance,
two centers, refinement on. -/
theorem gonzalez_centers_distinct_witness :
    ∃ F, ∀ fuel, F ≤ fuel →
      ∃ out, gonzalez fuel 2
          { size := 3, dist := fun i j => if i = j then 0 else 1 } true false = .ok out ∧
        out.result.centers.Nodup ∧ out.result.centers.length ≤ 3 ∧
        ∀ c ∈ out.result.centers, c < 3 :=
  gonzalez_centers_distinct { size := 3, dist := fun i j => if i = j then 0 else 1 } 2 true
    (by decide) (by decide) (by decide) (by decide) (by decide)

/-! ## The nearest center -/

theorem cheap_dist_row {inp : Curves} {M M1 : Distances} {i c : Nat}
    (h : cheap_dist i c inp M = .ok M1) :
    M1.cell i c = M.afterCall inp i c ∧
      (∀ y, M1.afterCall inp i y = M.afterCall inp i y) ∧
      (∀ y, M.cell i y = M.afterCall inp i y → M1.cell i y = M.afterCall inp i y) := by
  unfold cheap_dist at h
  split at h
  · split at h
    · rename_i hneg
      split at h
      · injection h with h
        subst h
        have hcell : ∀ y, ({ (M.write c i (inp.dist i c)).write i c (inp.dist i c) with
            oracleCalls := M.oracleCalls ++ [(i, c)] } : Distances).cell i y =
            if y = c then inp.dist i c else M.cell i y := by
          intro y
          simp only [Distances.write, true_and]
          by_cases hy : y = c
          · simp [hy]
          · have : ¬ (i = c ∧ y = i) := fun hh => hy (hh.2.trans hh.1)
            simp [hy, this]
        refine ⟨?_, ?_, ?_⟩
        · rw [hcell]; simp [Distances.afterCall, hneg]
        · intro y
          unfold Distances.afterCall
          rw [hcell]
          by_cases hy : y = c
          · subst hy; simp [hneg]
          · simp [hy]
        · intro y hy1
          rw [hcell]
          by_cases hy : y = c
          · subst hy; simp [Distances.afterCall, hneg]
          · simp [hy, hy1]
      · cases h
    · rename_i hnn
      injection h with h
      subst h
      exact ⟨by simp [Distances.afterCall, hnn], fun _ => rfl, fun _ hy => hy⟩
  · cases h

theorem curve_cost_loop_value {inp : Curves} {i : Nat} (hi : i < inp.size) :
    ∀ (cs : List Nat) (acc : distance_t) (M : Distances),
      (∀ c ∈ cs, c < inp.size) → M.size = inp.size →
      ∃ M1, curve_cost_loop i inp cs acc M =
          .ok (min acc (nearestDistance (fun _ y => M.afterCall inp i y) i cs), M1) ∧
        M1.size = inp.size ∧
        (∀ y, M1.afterCall inp i y = M.afterCall inp i y) ∧
        (∀ y, M.cell i y = M.afterCall inp i y → M1.cell i y = M.afterCall inp i y) ∧
        (∀ c ∈ cs, M1.cell i c = M.afterCall inp i c) := by
  intro cs
  induction cs with
  | nil =>
    intro acc M _ hs
    refine ⟨M, by simp [curve_cost_loop, nearestDistance], hs, fun _ => rfl, fun _ h => h, ?_⟩
    intro c hc; cases hc
  | cons c rest ih =>
    intro acc M hcs hs
    obtain ⟨M0, h0, hs0⟩ := cheap_dist_total hs hi (hcs c (List.mem_cons_self _ _))
    obtain ⟨hread, hsame, hkeep⟩ := cheap_dist_row h0
    have hrest : ∀ x ∈ rest, x < inp.size := fun x hx => hcs x (List.mem_cons_of_mem _ hx)
    have hfun : (fun (_ : Nat) y => M0.afterCall inp i y) = (fun (_ : Nat) y => M.afterCall inp i y) := by
      funext _ y; exact hsame y
    have key : ∀ acc1 : distance_t, acc1 = min acc ((M0.cell i c : ℚ) : distance_t) →
        ∃ M1, curve_cost_loop i inp rest acc1 M0 =
            .ok (min acc (nearestDistance (fun _ y => M.afterCall inp i y) i (c :: rest)), M1) ∧
          M1.size = inp.size ∧
          (∀ y, M1.afterCall inp i y = M.afterCall inp i y) ∧
          (∀ y, M.cell i y = M.afterCall inp i y → M1.cell i y = M.afterCall inp i y) ∧
          (∀ x ∈ c :: rest, M1.cell i x = M.afterCall inp i x) := by
      intro acc1 hacc
      obtain ⟨M1, h1, hs1, hsame1, hkeep1, hall1⟩ := ih acc1 M0 hrest hs0
      refine ⟨M1, ?_, hs1, fun y => (hsame1 y).trans (hsame y), ?_, ?_⟩
      · rw [h1, hfun, hacc, hread]
        simp only [nearestDistance, List.map_cons, List.minimum_cons, min_assoc]
      · intro y hy
        rw [← hsame y]
        exact hkeep1 y (by rw [hsame y]; exact hkeep y hy)
      · intro x hx
        rcases List.mem_cons.mp hx with rfl | hx
        · rw [← hsame x]
          exact hkeep1 x (by rw [hsame x]; exact hread)
        · rw [hall1 x hx, hsame x]
    simp only [curve_cost_loop, h0]
    split
    · rename_i hlt
      exact key _ (by rw [min_eq_right (le_of_lt hlt)])
    · rename_i hnlt
      exact key _ (by rw [min_eq_left (not_lt.mp hnlt)])

theorem getNearestCenter_loop_spec {inp : Curves} {i : Nat} (hi : i < inp.size) :
    ∀ (cs : List Nat) (j : Nat) (acc : distance_t) (nearest : Nat) (M : Distances),
      (∀ c ∈ cs, c < inp.size) → M.size = inp.size →
      ∃ p v M1, getNearestCenter_loop i inp cs j acc nearest M = .ok (p, M1) ∧
        curve_cost_loop i inp cs acc M = .ok (v, M1) ∧
        ((p = nearest ∧ ∀ (q : Nat) (c : Nat), cs[q]? = some c → acc ≤ ((M.afterCall inp i c : ℚ) : distance_t)) ∨
         (∃ (q : Nat) (c : Nat), cs[q]? = some c ∧ p = j + q ∧
            ((M.afterCall inp i c : ℚ) : distance_t) < acc ∧
            (∀ (q1 : Nat) (c1 : Nat), cs[q1]? = some c1 → M.afterCall inp i c ≤ M.afterCall inp i c1) ∧
            (∀ (q1 : Nat) (c1 : Nat), q1 < q → cs[q1]? = some c1 →
              M.afterCall inp i c < M.afterCall inp i c1))) := by
  intro cs
  induction cs with
  | nil =>
    intro j acc nearest M _ _
    refine ⟨nearest, acc, M, rfl, rfl, Or.inl ⟨rfl, ?_⟩⟩
    intro q c hq; simp at hq
  | cons c0 rest ih =>
    intro j acc nearest M hcs hs
    obtain ⟨M0, h0, hs0⟩ := cheap_dist_total hs hi (hcs c0 (List.mem_cons_self _ _))
    obtain ⟨hread, hsame, -⟩ := cheap_dist_row h0
    have hrest : ∀ x ∈ rest, x < inp.size := fun x hx => hcs x (List.mem_cons_of_mem _ hx)
    simp only [getNearestCenter_loop, curve_cost_loop, h0]
    rw [hread]
    by_cases hlt : ((M.afterCall inp i c0 : ℚ) : distance_t) < acc
    · simp only [if_pos hlt]
      obtain ⟨p, v, M1, h1, h2, hcase⟩ := ih (j + 1) (M.afterCall inp i c0 : ℚ) j M0 hrest hs0
      refine ⟨p, v, M1, h1, h2, Or.inr ?_⟩
      rcases hcase with ⟨hp, hall⟩ | ⟨q, c, hq, hp, hlt1, hmin, hfirst⟩
      · refine ⟨0, c0, by simp, by omega, hlt, ?_, ?_⟩
        · intro q1 c1 hq1
          rcases q1 with _ | q1
          · simp at hq1; rw [← hq1]
          · have := hall q1 c1 (by simpa using hq1)
            rw [hsame c1] at this
            exact WithTop.coe_le_coe.mp this
        · intro q1 c1 hq1 _; omega
      · rw [hsame c] at hlt1
        have hlt1q : M.afterCall inp i c < M.afterCall inp i c0 := WithTop.coe_lt_coe.mp hlt1
        refine ⟨q + 1, c, by simpa using hq, by omega, lt_trans hlt1 hlt, ?_, ?_⟩
        · intro q1 c1 hq1
          rcases q1 with _ | q1
          · simp at hq1; rw [← hq1]; exact le_of_lt hlt1q
          · have := hmin q1 c1 (by simpa using hq1)
            rw [hsame c, hsame c1] at this
            exact this
        · intro q1 c1 hlt2 hq1
          rcases q1 with _ | q1
          · simp at hq1; rw [← hq1]; exact hlt1q
          · have := hfirst q1 c1 (by omega) (by simpa using hq1)
            rw [hsame c, hsame c1] at this
            exact this
    · simp only [if_neg hlt]
      have hge : acc ≤ ((M.afterCall inp i c0 : ℚ) : distance_t) := not_lt.mp hlt
      obtain ⟨p, v, M1, h1, h2, hcase⟩ := ih (j + 1) acc nearest M0 hrest hs0
      refine ⟨p, v, M1, h1, h2, ?_⟩
      rcases hcase with ⟨hp, hall⟩ | ⟨q, c, hq, hp, hlt1, hmin, hfirst⟩
      · refine Or.inl ⟨hp, ?_⟩
        intro q1 c1 hq1
        rcases q1 with _ | q1
        · simp at hq1; rw [← hq1]; exact hge
        · have := hall q1 c1 (by simpa using hq1)
          rw [hsame c1] at this
          exact this
      · rw [hsame c] at hlt1
        have hlt1q : M.afterCall inp i c < M.afterCall inp i c0 :=
          WithTop.coe_lt_coe.mp (lt_of_lt_of_le hlt1 hge)
        refine Or.inr ⟨q + 1, c, by simpa using hq, by omega, hlt1, ?_, ?_⟩
        · intro q1 c1 hq1
          rcases q1 with _ | q1
          · simp at hq1; rw [← hq1]; exact le_of_lt hlt1q
          · have := hmin q1 c1 (by simpa using hq1)
            rw [hsame c, hsame c1] at this
            exact this
        · intro q1 c1 hlt2 hq1
          rcases q1 with _ | q1
          · simp at hq1; rw [← hq1]; exact hlt1q
          · have := hfirst q1 c1 (by omega) (by simpa using hq1)
            rw [hsame c, hsame c1] at this
            exact this

/-- C18. For a valid curve index `i`, a non-empty sequence of valid centers and
a table `M` of the collection's size, write `d c` for the distance the scan
reads for center `c`: the value the oracle returns for `(i, c)` when
`M[i][c]` is unfilled, and `M[i][c]` otherwise (`M.afterCall inp i c`); the
returned table holds `d c` in cell `(i, c)` for every center `c`.
`getNearestCenter(i, centers)` returns the smallest position `p` at which
`d (centers[p])` is the minimum of `d` over all positions, and
`curve_cost(i, centers)` returns `d (centers[p])` and leaves the same table.
When the filled cells of row `i` hold the oracle's values, `d` is the oracle
distance `inp.dist i`. For an empty center sequence `getNearestCenter` returns
0 and `curve_cost` returns `+infinity`. -/
theorem getNearestCenter_first_minimum (inp : Curves) (i : Nat) (centers : Centers)
    (M : Distances) (hi : i < inp.size) (hne : centers ≠ [])
    (hcs : ∀ c ∈ centers, c < inp.size) (hs : M.size = inp.size) :
    (∃ p c M1, getNearestCenter i inp centers M = .ok (p, M1) ∧ centers[p]? = some c ∧
      (∀ c1 ∈ centers, M1.cell i c1 = M.afterCall inp i c1) ∧
      (∀ (q : Nat) (c1 : Nat), centers[q]? = some c1 →
        M.afterCall inp i c ≤ M.afterCall inp i c1) ∧
      (∀ (q : Nat) (c1 : Nat), q < p → centers[q]? = some c1 →
        M.afterCall inp i c < M.afterCall inp i c1) ∧
      curve_cost i inp centers M = .ok (((M.afterCall inp i c : ℚ) : distance_t), M1) ∧
      ((∀ c1 ∈ centers, 0 ≤ M.cell i c1 → M.cell i c1 = inp.dist i c1) →
        (∀ c1 ∈ centers, M1.cell i c1 = inp.dist i c1) ∧
        (∀ (q : Nat) (c1 : Nat), centers[q]? = some c1 → inp.dist i c ≤ inp.dist i c1) ∧
        (∀ (q : Nat) (c1 : Nat), q < p → centers[q]? = some c1 →
          inp.dist i c < inp.dist i c1) ∧
        curve_cost i inp centers M = .ok (((inp.dist i c : ℚ) : distance_t), M1))) ∧
    getNearestCenter i inp [] M = .ok (0, M) ∧ curve_cost i inp [] M = .ok (⊤, M) := by
  refine ⟨?_, rfl, rfl⟩
  obtain ⟨p, v, M1, h1, h2, hcase⟩ := getNearestCenter_loop_spec hi centers 0 ⊤ 0 M hcs hs
  obtain ⟨M2, h3, -, -, -, hall⟩ := curve_cost_loop_value hi centers ⊤ M hcs hs
  rw [h2] at h3
  simp only [Except.ok.injEq, Prod.mk.injEq] at h3
  obtain ⟨hv, hM⟩ := h3
  subst hM
  rcases hcase with ⟨-, htop⟩ | ⟨q, c, hq, hp, -, hmin, hfirst⟩
  · exfalso
    obtain ⟨c0, rest, hcons⟩ := List.exists_cons_of_ne_nil hne
    have := htop 0 c0 (by rw [hcons]; simp)
    exact absurd (WithTop.coe_lt_top _) (not_lt.mpr this)
  · have hpq : p = q := by omega
    subst hpq
    have hc : c ∈ centers := List.getElem?_mem hq
    have hval : nearestDistance (fun _ y => M.afterCall inp i y) i centers
        = ((M.afterCall inp i c : ℚ) : distance_t) := by
      unfold nearestDistance
      rw [List.minimum_eq_coe_iff]
      refine ⟨List.mem_map_of_mem _ hc, ?_⟩
      intro a ha
      obtain ⟨c1, hc1, rfl⟩ := List.mem_map.mp ha
      obtain ⟨q1, hq1⟩ := List.mem_iff_getElem?.mp hc1
      exact hmin q1 c1 hq1
    have hcost : curve_cost i inp centers M
        = .ok (((M.afterCall inp i c : ℚ) : distance_t), M1) := by
      show curve_cost_loop i inp centers ⊤ M = _
      rw [h2, hv, hval, min_eq_right le_top]
    refine ⟨p, c, M1, h1, hq, hall, hmin, hfirst, hcost, ?_⟩
    intro hcons
    have horacle : ∀ c1 ∈ centers, M.afterCall inp i c1 = inp.dist i c1 := by
      intro c1 hc1
      unfold Distances.afterCall
      split
      · rfl
      · rename_i hfilled
        exact hcons c1 hc1 (not_lt.mp hfilled)
    refine ⟨fun c1 hc1 => (hall c1 hc1).trans (horacle c1 hc1), ?_, ?_, ?_⟩
    · intro q1 c1 hq1
      rw [← horacle c hc, ← horacle c1 (List.getElem?_mem hq1)]
      exact hmin q1 c1 hq1
    · intro q1 c1 hlt hq1
      rw [← horacle c hc, ← horacle c1 (List.getElem?_mem hq1)]
      exact hfirst q1 c1 hlt hq1
    · rw [hcost, horacle c hc]

/-- Witness for C18: curve 3 of the example table, centers `[0, 2, 3]`, a
fresh table. -/
theorem getNearestCenter_first_minimum_witness :
    (∃ p c M1, getNearestCenter 3 exampleCurves [0, 2, 3] (Distances.fresh 4) = .ok (p, M1) ∧
      ([0, 2, 3] : List Nat)[p]? = some c ∧
      (∀ c1 ∈ ([0, 2, 3] : List Nat),
        M1.cell 3 c1 = (Distances.fresh 4).afterCall exampleCurves 3 c1) ∧
      (∀ (q : Nat) (c1 : Nat), ([0, 2, 3] : List Nat)[q]? = some c1 →
        (Distances.fresh 4).afterCall exampleCurves 3 c
          ≤ (Distances.fresh 4).afterCall exampleCurves 3 c1) ∧
      (∀ (q : Nat) (c1 : Nat), q < p → ([0, 2, 3] : List Nat)[q]? = some c1 →
        (Distances.fresh 4).afterCall exampleCurves 3 c
          < (Distances.fresh 4).afterCall exampleCurves 3 c1) ∧
      curve_cost 3 exampleCurves [0, 2, 3] (Distances.fresh 4)
        = .ok ((((Distances.fresh 4).afterCall exampleCurves 3 c : ℚ) : distance_t), M1) ∧
      ((∀ c1 ∈ ([0, 2, 3] : List Nat), 0 ≤ (Distances.fresh 4).cell 3 c1 →
          (Distances.fresh 4).cell 3 c1 = exampleCurves.dist 3 c1) →
        (∀ c1 ∈ ([0, 2, 3] : List Nat), M1.cell 3 c1 = exampleCurves.dist 3 c1) ∧
        (∀ (q : Nat) (c1 : Nat), ([0, 2, 3] : List Nat)[q]? = some c1 →
          exampleCurves.dist 3 c ≤ exampleCurves.dist 3 c1) ∧
        (∀ (q : Nat) (c1 : Nat), q < p → ([0, 2, 3] : List Nat)[q]? = some c1 →
          exampleCurves.dist 3 c < exampleCurves.dist 3 c1) ∧
        curve_cost 3 exampleCurves [0, 2, 3] (Distances.fresh 4)
          = .ok (((exampleCurves.dist 3 c : ℚ) : distance_t), M1))) ∧
    getNearestCenter 3 exampleCurves [] (Distances.fresh 4) = .ok (0, Distances.fresh 4) ∧
    curve_cost 3 exampleCurves [] (Distances.fresh 4) = .ok (⊤, Distances.fresh 4) :=
  getNearestCenter_first_minimum exampleCurves 3 [0, 2, 3] (Distances.fresh 4) (by decide)
    (by decide) (by decide) rfl

/-! ## The sampled 1-median -/

/-- C19 (the code diverges from the claim). On three curves with distances
`[[0,100,100],[100,0,99],[100,99,0]]` and `k = 1` the seeding returns the center
`[0]` with total cost 200, so `approxcost / (3*k*n) = 200 / 9`. The refinement
nevertheless accepts the swap to center 1, which lowers the cost by 1 only, and
returns `[1]` with value 199: `gamma` is the `size_t` quotient `1 / 9 = 0`, and
the test of line 188 with `gamma = 0` accepts every strict decrease. -/
theorem gonzalez_threshold_is_zero :
    (gonzalez 0 1 smallGainCurves false false).toOption.map (fun o => o.result.centers)
        = some [0] ∧
      totalCost smallGainCurves.lookup smallGainCurves.size [0] = 200 ∧
      (gonzalez 3 1 smallGainCurves true false).toOption.map
        (fun o => (o.result.centers, o.result.value)) = some ([1], some 199) ∧
      1 / ((3 * 1 * smallGainCurves.size) % 2 ^ 64) = 0 ∧
      gonzalez_improves 200 (1 / ((3 * 1 * smallGainCurves.size) % 2 ^ 64)) 200 199 = true ∧
      ¬ ((200 : ℚ) - 199 > 200 / (3 * 1 * 3)) := by
  refine ⟨by decide, by decide!, by decide!, by decide, by decide!, by norm_num⟩

/-! ## Local optimality of the refined centers -/

end Clustering
